import Mathlib

/-!
# Verification of the codesurvey orchestration core

Shallow embedding of the `codesurvey` Python package (survey scheduler,
completion store and aggregation logic) together with proofs settling the
specification claims about it.

Conventions of the embedding:
* `datetime.now()` timestamps are modelled by a logical clock (`Nat`) held in
  the runner state and bumped at each persistence call.
* The sqlite tables of `codesurvey/database.py` are modelled as lists of rows;
  peewee's `insert ... on_conflict(preserve=...)` (which overwrites the listed
  columns with the newly inserted values) is modelled by an in-place
  replace-or-append upsert keyed on the table's composite primary key.
* SQLite's two-argument scalar `MAX(x, 1)` is `Nat.max x 1`; the aggregate
  `MAX(updated)` together with SQLite's bare-column rule (bare columns of a
  min/max aggregate query come from a row attaining the extremum) picks the
  `analyzer_name` of the first row attaining the maximal `updated`.
-/

namespace CodeSurvey

/-- Row of the `code_feature` table (`CodeFeatureModel` in `database.py`).
A `none` `occurrence_count` marks an ignored (skipped) code. -/
structure CodeFeatureRow where
  updated : Nat
  source_name : String
  repo_key : String
  analyzer_name : String
  code_key : String
  feature_name : String
  occurrence_count : Option Nat
  occurrences : Option (List String)
deriving DecidableEq, Repr

/-- Row of the `repo_feature` table (`RepoFeatureModel` in `database.py`). -/
structure RepoFeatureRow where
  updated : Nat
  source_name : String
  repo_key : String
  analyzer_name : String
  feature_name : String
  occurrence_count : Nat
  code_occurrence_count : Nat
  code_total_count : Nat
deriving DecidableEq, Repr

/-- Row of the `repo_metadata` table (`RepoMetadataModel` in `database.py`). -/
structure RepoMetadataRow where
  updated : Nat
  source_name : String
  repo_key : String
  metadata_key : String
  metadata_value : String
deriving DecidableEq, Repr

/-- The survey sqlite database (`Database` in `database.py`). -/
structure Database where
  repo_metadata : List RepoMetadataRow
  repo_features : List RepoFeatureRow
  code_features : List CodeFeatureRow
deriving DecidableEq, Repr

/-- The empty (freshly created) database. -/
def Database.empty : Database := ⟨[], [], []⟩

/-- Composite primary key of `code_feature`. -/
def CodeFeatureRow.key (r : CodeFeatureRow) : String × String × String × String × String :=
  (r.source_name, r.repo_key, r.analyzer_name, r.code_key, r.feature_name)

/-- Composite primary key of `repo_feature`. -/
def RepoFeatureRow.key (r : RepoFeatureRow) : String × String × String × String :=
  (r.source_name, r.repo_key, r.analyzer_name, r.feature_name)

/-- Composite primary key of `repo_metadata`. -/
def RepoMetadataRow.key (r : RepoMetadataRow) : String × String × String :=
  (r.source_name, r.repo_key, r.metadata_key)

/-- Generic upsert: replace the first row with the same key in place, append
otherwise. Models peewee `insert ... on_conflict(conflict_target=pk,
preserve=<all value columns>)`, which overwrites every non-key column with the
newly inserted value on conflict. -/
def upsertBy {α κ : Type} [DecidableEq κ] (key : α → κ) (row : α) : List α → List α
  | [] => [row]
  | r :: rs => if key r = key row then row :: rs else r :: upsertBy key row rs

/-- `Database.save_repo_metadata`: upsert one metadata row per metadata item. -/
def Database.save_repo_metadata (db : Database) (now : Nat)
    (sourceName repoKey : String) (metadata : List (String × String)) : Database :=
  let rows := metadata.foldl
    (fun rows kv =>
      upsertBy RepoMetadataRow.key
        { updated := now, source_name := sourceName, repo_key := repoKey,
          metadata_key := kv.1, metadata_value := kv.2 } rows)
    db.repo_metadata
  { db with repo_metadata := rows }

/-- Analysis result of a single feature for a single source-code unit
(`Feature` in `analyzers/features.py`); occurrence records are opaque. -/
structure FeatureRes where
  ignore : Bool
  occurrences : List String
deriving DecidableEq, Repr

/-- A completed `Code` analysis result (the `Code` dataclass of
`analyzers/core.py`, with the analyzer/repo references flattened to names). -/
structure CodeData where
  sourceName : String
  repoKey : String
  analyzerName : String
  key : String
  features : List (String × FeatureRes)
deriving DecidableEq, Repr

/-- `Database.save_code_features`: upsert one `code_feature` row per feature of
the code; an ignored feature stores a null count, and the occurrence payload is
stored only when `save_occurrences` is set. -/
def Database.save_code_features (db : Database) (now : Nat) (code : CodeData)
    (save_occurrences : Bool) : Database :=
  let rows := code.features.foldl
    (fun rows nf =>
      upsertBy CodeFeatureRow.key
        { updated := now,
          source_name := code.sourceName,
          repo_key := code.repoKey,
          analyzer_name := code.analyzerName,
          code_key := code.key,
          feature_name := nf.1,
          occurrence_count := if nf.2.ignore then none else some nf.2.occurrences.length,
          occurrences :=
            if nf.2.ignore || !save_occurrences then none else some nf.2.occurrences }
        rows)
    db.code_features
  { db with code_features := rows }

/-- Deduplication keeping first occurrences, used to model the SQL
`GROUP BY feature_name` group keys in first-appearance order. -/
def dedupKeepFirst {α : Type} [DecidableEq α] (seen : List α) : List α → List α
  | [] => []
  | x :: xs =>
    if x ∈ seen then dedupKeepFirst seen xs
    else x :: dedupKeepFirst (x :: seen) xs

/-- Maximum `updated` timestamp of a list of code rows (`fn.MAX(updated)`). -/
def maxUpdated (rows : List CodeFeatureRow) : Nat :=
  rows.foldl (fun acc r => Nat.max acc r.updated) 0

/-- Bare-column `analyzer_name` of the aggregate query: by SQLite's rule it
comes from a row attaining `MAX(updated)`; we take the first such row. -/
def pickAnalyzerName (rows : List CodeFeatureRow) : String :=
  match rows.find? (fun r => r.updated = maxUpdated rows) with
  | some r => r.analyzer_name
  | none => ""

/-- One group of the aggregation `SELECT` of `Database.save_repo_features`,
translated column by column:
`MAX(updated)`, bare `source_name`/`repo_key`/`analyzer_name`, the group key
`feature_name`, `SUM(occurrence_count)`, `SUM(MAX(occurrence_count, 1))`
(two-argument scalar max, exactly as written in the source), and `COUNT()`. -/
def mkAggRow (sourceName repoKey fname : String) (group : List CodeFeatureRow) :
    RepoFeatureRow :=
  { updated := maxUpdated group,
    source_name := sourceName,
    repo_key := repoKey,
    analyzer_name := pickAnalyzerName group,
    feature_name := fname,
    occurrence_count := (group.map (fun r => r.occurrence_count.getD 0)).sum,
    code_occurrence_count := (group.map (fun r => Nat.max (r.occurrence_count.getD 0) 1)).sum,
    code_total_count := group.length }

/-- The row set produced by the aggregation `SELECT` of
`Database.save_repo_features`: code rows of the repo with non-null
`occurrence_count`, grouped by `feature_name`. -/
def aggregateRepoRows (db : Database) (sourceName repoKey : String) :
    List RepoFeatureRow :=
  let rows := db.code_features.filter (fun r =>
    r.source_name = sourceName ∧ r.repo_key = repoKey ∧ r.occurrence_count.isSome)
  (dedupKeepFirst [] (rows.map (fun r => r.feature_name))).map
    (fun fname => mkAggRow sourceName repoKey fname
      (rows.filter (fun r => r.feature_name = fname)))

/-- `Database.save_repo_features`: insert the aggregated rows into
`repo_feature` (upserting on the primary key), then optionally delete the
repo's `code_feature` rows when `keep_code_features` is false. -/
def Database.save_repo_features (db : Database) (sourceName repoKey : String)
    (keep_code_features : Bool) : Database :=
  let rows := (aggregateRepoRows db sourceName repoKey).foldl
    (fun rows row => upsertBy RepoFeatureRow.key row rows) db.repo_features
  let db' := { db with repo_features := rows }
  if keep_code_features then db'
  else
    let kept := db'.code_features.filter (fun r =>
      ¬(r.source_name = sourceName ∧ r.repo_key = repoKey))
    { db' with code_features := kept }

/-- `Database.get_repo_missing_analyzer_features`: per analyzer, the features
with no `repo_feature` row for the given repo; analyzers with no missing
features are dropped. -/
def Database.get_repo_missing_analyzer_features (db : Database)
    (sourceName repoKey : String) (analyzer_features : List (String × List String)) :
    List (String × List String) :=
  (analyzer_features.map (fun af =>
    (af.1, af.2.filter (fun f =>
      ¬ db.repo_features.any (fun r =>
        r.source_name = sourceName ∧ r.repo_key = repoKey ∧
        r.analyzer_name = af.1 ∧ r.feature_name = f))))).filter
    (fun af => af.2.length > 0)

/-- `Database.get_code_missing_features`: the given features with no
`code_feature` row for the given code. -/
def Database.get_code_missing_features (db : Database)
    (sourceName repoKey codeKey analyzerName : String) (features : List String) :
    List String :=
  features.filter (fun f =>
    ¬ db.code_features.any (fun r =>
      r.source_name = sourceName ∧ r.repo_key = repoKey ∧
      r.analyzer_name = analyzerName ∧ r.code_key = codeKey ∧ r.feature_name = f))

/-! ## Claims C1 and C2: the repo-level aggregation invariant

The aggregation of `Database.save_repo_features` computes the column commented
as "Count of all CodeFeatureModels with at least one occurrence" using the
SQLite scalar `MAX(occurrence_count, 1)`, which clamps every per-code count
*up* to at least 1; counting codes with a nonzero count would need the clamp
*down* `MIN(occurrence_count, 1)`. -/

/-- A store holding a single non-skipped code analysis with two occurrences of
feature `f`. -/
def dbOneCodeTwoOccurrences : Database :=
  { repo_metadata := [],
    repo_features := [],
    code_features := [
      { updated := 0, source_name := "s", repo_key := "r", analyzer_name := "a",
        code_key := "c", feature_name := "f",
        occurrence_count := some 2, occurrences := none } ] }

/-- A store holding a single non-skipped code analysis with zero occurrences of
feature `f`. -/
def dbOneCodeZeroOccurrences : Database :=
  { repo_metadata := [],
    repo_features := [],
    code_features := [
      { updated := 0, source_name := "s", repo_key := "r", analyzer_name := "a",
        code_key := "c", feature_name := "f",
        occurrence_count := some 0, occurrences := none } ] }

/-- C1: the claimed invariant `code_total_count ≥ code_occurrence_count` is
violated by the code. Aggregating a repo holding one non-skipped code with two
occurrences of feature `f` persists `code_occurrence_count = 2` but
`code_total_count = 1`, because `save_repo_features` computes the occurrence
column as `SUM(MAX(occurrence_count, 1))` — contradicting both the spec
invariant and the source's own comment ("Count of all CodeFeatureModels with
at least one occurrence"), which require the clamp `MIN(occurrence_count, 1)`. -/
theorem c1_aggregate_invariant_violated :
    ((dbOneCodeTwoOccurrences.save_repo_features "s" "r" true).repo_features.map
      (fun r => (r.feature_name, r.code_occurrence_count, r.code_total_count))
      = [("f", 2, 1)])
    ∧ ¬ ((dbOneCodeTwoOccurrences.save_repo_features "s" "r" true).repo_features.all
      (fun r => r.code_occurrence_count ≤ r.code_total_count)) := by
  constructor
  · rfl
  · decide

/-- C2: the persisted `code_occurrence_count` is not the number of non-skipped
units with at least one occurrence. For a repo whose single non-skipped code
has zero occurrences of feature `f`, that number is 0, yet
`save_repo_features` persists `code_occurrence_count = MAX(0, 1) = 1`. -/
theorem c2_code_occurrence_count_wrong :
    ((dbOneCodeZeroOccurrences.save_repo_features "s" "r" true).repo_features.map
      (fun r => (r.feature_name, r.code_occurrence_count)) = [("f", 1)])
    ∧ ((dbOneCodeZeroOccurrences.code_features.filter
        (fun r => r.occurrence_count.isSome ∧ 1 ≤ r.occurrence_count.getD 0)).length
      = 0) := by
  constructor
  · rfl
  · decide

/-! ## Sources and the round-robin repo feed (`CodeSurveyRunner.get_repo_generator`) -/

/-- A repository handle (`Repo` in `sources/core.py`): owning source name, key
unique within the source, and provider metadata. The local path and the
cleanup callable are represented by the handle's identity in the runner. -/
structure RepoModel where
  sourceName : String
  key : String
  metadata : List (String × String)
deriving DecidableEq, Repr

/-- An item yielded by a source's `repo_generator()`: either an
immediately-available `Repo` or a `RepoThunk` whose deferred computation
produces the contained repo (`none` models the thunk raising in the worker). -/
inductive RepoItem where
  | ready (repo : RepoModel)
  | thunk (sourceName key : String) (result : Option RepoModel)
deriving DecidableEq, Repr

/-- `repo_or_thunk.source.name` as read by the runner. -/
def RepoItem.sourceName : RepoItem → String
  | .ready repo => repo.sourceName
  | .thunk sourceName _ _ => sourceName

/-- `repo_or_thunk.key` as read by the runner. -/
def RepoItem.key : RepoItem → String
  | .ready repo => repo.key
  | .thunk _ key _ => key

/-- A source (`Source` in `sources/core.py`) as observed through its
`repo_generator()` iterator: a name and the outcome of each successive `next()`
call — `some item` for a yield, `none` for a raised exception (logged and
skipped for that turn), with `StopIteration` once the list is exhausted. -/
structure SourceModel where
  name : String
  turns : List (Option RepoItem)
deriving DecidableEq, Repr

/-- Termination measure for the round-robin rotation: one step either removes
an exhausted source or consumes one turn. -/
def rotationMeasure (srcs : List SourceModel) : Nat :=
  (srcs.map (fun s => s.turns.length + 1)).sum

theorem rotationMeasure_append (l1 l2 : List SourceModel) :
    rotationMeasure (l1 ++ l2) = rotationMeasure l1 + rotationMeasure l2 := by
  simp [rotationMeasure]

/-- One draw from the round-robin feed of `get_repo_generator`: visit the head
source of the rotation; an exhausted source is removed permanently, a raising
source is skipped for the turn and rotated to the back, and a yielded item is
returned with the source rotated to the back (so the next draw visits the next
source). Faithful to `itertools.cycle` over the sources with removal of
exhausted ones: the cycle with deletions is exactly this rotating queue. -/
def nextRepoItemAux : Nat → List SourceModel → Option (RepoItem × List SourceModel)
  | _, [] => none
  | 0, _ :: _ => none
  | fuel + 1, ⟨_, []⟩ :: rest => nextRepoItemAux fuel rest
  | fuel + 1, ⟨n, none :: ts⟩ :: rest => nextRepoItemAux fuel (rest ++ [⟨n, ts⟩])
  | _ + 1, ⟨n, some it :: ts⟩ :: rest => some (it, rest ++ [⟨n, ts⟩])

/-- One draw from the rotation; `rotationMeasure` steps of `nextRepoItemAux`
always suffice (every recursive step lowers the measure by exactly one, and a
zero measure means the rotation is empty), so this is the total draw. -/
def nextRepoItem (srcs : List SourceModel) : Option (RepoItem × List SourceModel) :=
  nextRepoItemAux (rotationMeasure srcs) srcs

theorem nextRepoItem_nil : nextRepoItem [] = none := rfl

theorem nextRepoItem_exhausted (n : String) (rest : List SourceModel) :
    nextRepoItem (⟨n, []⟩ :: rest) = nextRepoItem rest := by
  show nextRepoItemAux (rotationMeasure (⟨n, []⟩ :: rest)) (⟨n, []⟩ :: rest)
      = nextRepoItemAux (rotationMeasure rest) rest
  have hm : rotationMeasure (⟨n, []⟩ :: rest) = rotationMeasure rest + 1 := by
    simp [rotationMeasure]
    omega
  rw [hm]
  rfl

theorem nextRepoItem_raised (n : String) (ts : List (Option RepoItem))
    (rest : List SourceModel) :
    nextRepoItem (⟨n, none :: ts⟩ :: rest) = nextRepoItem (rest ++ [⟨n, ts⟩]) := by
  show nextRepoItemAux (rotationMeasure (⟨n, none :: ts⟩ :: rest)) (⟨n, none :: ts⟩ :: rest)
      = nextRepoItemAux (rotationMeasure (rest ++ [⟨n, ts⟩])) (rest ++ [⟨n, ts⟩])
  have hm : rotationMeasure (⟨n, none :: ts⟩ :: rest)
      = rotationMeasure (rest ++ [⟨n, ts⟩]) + 1 := by
    simp [rotationMeasure_append, rotationMeasure]
    omega
  rw [hm]
  rfl

theorem nextRepoItem_yield (n : String) (it : RepoItem)
    (ts : List (Option RepoItem)) (rest : List SourceModel) :
    nextRepoItem (⟨n, some it :: ts⟩ :: rest) = some (it, rest ++ [⟨n, ts⟩]) := by
  show nextRepoItemAux (rotationMeasure (⟨n, some it :: ts⟩ :: rest))
      (⟨n, some it :: ts⟩ :: rest) = some (it, rest ++ [⟨n, ts⟩])
  have hm : rotationMeasure (⟨n, some it :: ts⟩ :: rest)
      = (rotationMeasure rest + ts.length + 1) + 1 := by
    simp [rotationMeasure]
    omega
  rw [hm]
  rfl

/-- A successful draw strictly decreases the rotation measure. -/
theorem nextRepoItemAux_measure_lt :
    ∀ (fuel : Nat) (srcs : List SourceModel) (it : RepoItem)
      (srcs' : List SourceModel),
      nextRepoItemAux fuel srcs = some (it, srcs') →
      rotationMeasure srcs' < rotationMeasure srcs := by
  intro fuel
  induction fuel with
  | zero =>
    intro srcs it srcs' h
    cases srcs with
    | nil => simp [nextRepoItemAux] at h
    | cons s rest => simp [nextRepoItemAux] at h
  | succ f ih =>
    intro srcs it srcs' h
    match srcs with
    | [] => simp [nextRepoItemAux] at h
    | ⟨n, []⟩ :: rest =>
      have h0 : nextRepoItemAux f rest = some (it, srcs') := by exact h
      have h2 := ih rest it srcs' h0
      have h3 : rotationMeasure rest < rotationMeasure (⟨n, []⟩ :: rest) := by
        simp [rotationMeasure]
      omega
    | ⟨n, none :: ts⟩ :: rest =>
      have h0 : nextRepoItemAux f (rest ++ [⟨n, ts⟩]) = some (it, srcs') := by exact h
      have h2 := ih (rest ++ [⟨n, ts⟩]) it srcs' h0
      have h3 : rotationMeasure (rest ++ [⟨n, ts⟩])
          < rotationMeasure (⟨n, none :: ts⟩ :: rest) := by
        simp [rotationMeasure_append, rotationMeasure]
        omega
      omega
    | ⟨n, some it' :: ts⟩ :: rest =>
      have h0 : some (it', rest ++ [⟨n, ts⟩]) = some (it, srcs') := by exact h
      have h' : it' = it ∧ rest ++ [⟨n, ts⟩] = srcs' := by
        have := Option.some.inj h0
        exact ⟨congrArg Prod.fst this, congrArg Prod.snd this⟩
      rw [← h'.2]
      simp [rotationMeasure_append, rotationMeasure]
      omega

/-- A successful draw strictly decreases the rotation measure. -/
theorem nextRepoItem_measure_lt (srcs : List SourceModel) :
    ∀ it srcs', nextRepoItem srcs = some (it, srcs') →
      rotationMeasure srcs' < rotationMeasure srcs := fun it srcs' h =>
  nextRepoItemAux_measure_lt (rotationMeasure srcs) srcs it srcs' h

/-- The full sequence of candidates produced by
`CodeSurveyRunner.get_repo_generator` for the given sources. -/
def getRepoGenerator (srcs : List SourceModel) : List RepoItem :=
  match hn : nextRepoItem srcs with
  | none => []
  | some (it, srcs') => it :: getRepoGenerator srcs'
termination_by rotationMeasure srcs
decreasing_by exact nextRepoItem_measure_lt srcs it srcs' hn

/-- Unfolding: an exhausted feed yields nothing. -/
theorem getRepoGenerator_none {srcs : List SourceModel}
    (h : nextRepoItem srcs = none) : getRepoGenerator srcs = [] := by
  rw [getRepoGenerator]
  split
  · rfl
  · rename_i it srcs' hn; rw [h] at hn; cases hn

/-- Unfolding: a successful draw yields its item then continues. -/
theorem getRepoGenerator_some {srcs : List SourceModel} {it : RepoItem}
    {srcs' : List SourceModel} (h : nextRepoItem srcs = some (it, srcs')) :
    getRepoGenerator srcs = it :: getRepoGenerator srcs' := by
  rw [getRepoGenerator]
  split
  · rename_i hn; rw [h] at hn; cases hn
  · rename_i it2 srcs2 hn
    rw [h] at hn
    cases hn
    rfl

/-- An exhausted source (its iterator immediately raises `StopIteration`) is
removed from rotation permanently. -/
theorem getRepoGenerator_exhausted (n : String) (rest : List SourceModel) :
    getRepoGenerator (⟨n, []⟩ :: rest) = getRepoGenerator rest := by
  have h : nextRepoItem (⟨n, []⟩ :: rest) = nextRepoItem rest :=
    nextRepoItem_exhausted n rest
  cases hr : nextRepoItem rest with
  | none => rw [getRepoGenerator_none (h.trans hr), getRepoGenerator_none hr]
  | some p =>
    obtain ⟨it, srcs'⟩ := p
    rw [getRepoGenerator_some (h.trans hr), getRepoGenerator_some hr]

/-- A source that raises on its turn is skipped for that turn without being
removed from rotation. -/
theorem getRepoGenerator_raised (n : String) (ts : List (Option RepoItem))
    (rest : List SourceModel) :
    getRepoGenerator (⟨n, none :: ts⟩ :: rest) = getRepoGenerator (rest ++ [⟨n, ts⟩]) := by
  have h : nextRepoItem (⟨n, none :: ts⟩ :: rest) = nextRepoItem (rest ++ [⟨n, ts⟩]) :=
    nextRepoItem_raised n ts rest
  cases hr : nextRepoItem (rest ++ [⟨n, ts⟩]) with
  | none => rw [getRepoGenerator_none (h.trans hr), getRepoGenerator_none hr]
  | some p =>
    obtain ⟨it, srcs'⟩ := p
    rw [getRepoGenerator_some (h.trans hr), getRepoGenerator_some hr]

/-- A source that yields a candidate emits it and the feed advances to the
next source (strict round-robin). -/
theorem getRepoGenerator_yield (n : String) (it : RepoItem)
    (ts : List (Option RepoItem)) (rest : List SourceModel) :
    getRepoGenerator (⟨n, some it :: ts⟩ :: rest)
      = it :: getRepoGenerator (rest ++ [⟨n, ts⟩]) := by
  exact getRepoGenerator_some (nextRepoItem_yield n it ts rest)

/-- The items a source yields over its lifetime, in its own yield order. -/
def SourceModel.yielded (s : SourceModel) : List RepoItem :=
  s.turns.filterMap id

/-- Every item a source yields is stamped with that source's name (true of all
`Source` implementations, which build items via `self.repo(...)` /
`self.repo_thunk(...)`). -/
def sourcesTagged (srcs : List SourceModel) : Prop :=
  ∀ s ∈ srcs, ∀ it ∈ s.yielded, it.sourceName = s.name

/-- At most one source of the rotation carries the given name. -/
def uniquelyNamed (n : String) (srcs : List SourceModel) : Prop :=
  (srcs.filter (fun s => s.name = n)).length ≤ 1

instance (srcs : List SourceModel) : Decidable (sourcesTagged srcs) := by
  unfold sourcesTagged; infer_instance

instance (n : String) (srcs : List SourceModel) : Decidable (uniquelyNamed n srcs) := by
  unfold uniquelyNamed; infer_instance

/-- The items yielded by the source named `n`. -/
def yieldedOf (n : String) (srcs : List SourceModel) : List RepoItem :=
  ((srcs.filter (fun s => s.name = n)).map SourceModel.yielded).flatten

theorem yieldedOf_cons (n : String) (s : SourceModel) (rest : List SourceModel) :
    yieldedOf n (s :: rest)
      = (if s.name = n then s.yielded else []) ++ yieldedOf n rest := by
  by_cases h : s.name = n <;> simp [yieldedOf, h]

theorem yieldedOf_append (n : String) (l1 l2 : List SourceModel) :
    yieldedOf n (l1 ++ l2) = yieldedOf n l1 ++ yieldedOf n l2 := by
  simp [yieldedOf]

theorem uniquelyNamed_tail {n : String} {s : SourceModel} {rest : List SourceModel}
    (h : uniquelyNamed n (s :: rest)) : uniquelyNamed n rest := by
  simp only [uniquelyNamed, List.filter_cons] at h ⊢
  split at h
  · simp only [List.length_cons] at h; omega
  · exact h

theorem length_filter_cons {α : Type} (p : α → Bool) (a : α) (l : List α) :
    ((a :: l).filter p).length = (if p a = true then 1 else 0) + (l.filter p).length := by
  by_cases h : p a = true <;> simp [List.filter_cons, h, Nat.add_comm]

theorem length_filter_append {α : Type} (p : α → Bool) (l1 l2 : List α) :
    ((l1 ++ l2).filter p).length = (l1.filter p).length + (l2.filter p).length := by
  simp

theorem uniquelyNamed_rotate {n : String} {s s' : SourceModel}
    {rest : List SourceModel} (hname : s'.name = s.name)
    (h : uniquelyNamed n (s :: rest)) : uniquelyNamed n (rest ++ [s']) := by
  unfold uniquelyNamed at h ⊢
  rw [List.filter_cons] at h
  rw [List.filter_append]
  by_cases hd : s.name = n
  · have hd' : s'.name = n := hname.trans hd
    simp [hd, hd'] at h ⊢
    exact h
  · have hd' : ¬ s'.name = n := fun hh => hd (hname.symm.trans hh)
    simp [hd, hd'] at h ⊢
    exact h

theorem uniquelyNamed_head_rest {n : String} {s : SourceModel}
    {rest : List SourceModel} (huniq : uniquelyNamed n (s :: rest))
    (hname : s.name = n) : yieldedOf n rest = [] := by
  have hnil : (rest.filter (fun s => s.name = n)) = [] := by
    simp only [uniquelyNamed, List.filter_cons, hname, decide_True,
      if_true, List.length_cons] at huniq
    have : (rest.filter (fun s => s.name = n)).length = 0 := by omega
    exact List.eq_nil_of_length_eq_zero this
  simp [yieldedOf, hnil]

/-- Within one source, the feed preserves the source's own yield order: the
feed's output restricted to a source is exactly the items that source yielded. -/
theorem getRepoGenerator_filter_source (srcs : List SourceModel) (n : String)
    (htag : sourcesTagged srcs) (huniq : uniquelyNamed n srcs) :
    (getRepoGenerator srcs).filter (fun it => it.sourceName = n) = yieldedOf n srcs := by
  generalize hm : rotationMeasure srcs = m
  induction m using Nat.strong_induction_on generalizing srcs with
  | _ m ih =>
    match srcs with
    | [] =>
      rw [getRepoGenerator_none nextRepoItem_nil]
      simp [yieldedOf]
    | ⟨nm, []⟩ :: rest =>
      rw [getRepoGenerator_exhausted]
      have hmlt : rotationMeasure rest < m := by subst hm; simp [rotationMeasure]
      have htag' : sourcesTagged rest := fun s hs => htag s (List.mem_cons_of_mem _ hs)
      rw [ih _ hmlt rest htag' (uniquelyNamed_tail huniq) rfl, yieldedOf_cons]
      simp [SourceModel.yielded]
    | ⟨nm, none :: ts⟩ :: rest =>
      rw [getRepoGenerator_raised]
      have hmlt : rotationMeasure (rest ++ [⟨nm, ts⟩]) < m := by
        subst hm; simp [rotationMeasure_append, rotationMeasure]; omega
      have htag' : sourcesTagged (rest ++ [⟨nm, ts⟩]) := by
        intro s hs it hit
        rcases List.mem_append.mp hs with hs | hs
        · exact htag s (List.mem_cons_of_mem _ hs) it hit
        · simp at hs
          subst hs
          refine htag ⟨nm, none :: ts⟩ (List.mem_cons_self _ _) it ?_
          simp only [SourceModel.yielded, List.filterMap] at hit ⊢
          exact hit
      have huniq' : uniquelyNamed n (rest ++ [⟨nm, ts⟩]) :=
        @uniquelyNamed_rotate n ⟨nm, none :: ts⟩ ⟨nm, ts⟩ rest rfl huniq
      rw [ih _ hmlt _ htag' huniq' rfl, yieldedOf_append, yieldedOf_cons,
        yieldedOf_cons]
      by_cases hcase : nm = n
      · rw [uniquelyNamed_head_rest huniq (by simpa using hcase)]
        simp [hcase, yieldedOf, SourceModel.yielded]
      · simp [hcase, yieldedOf]
    | ⟨nm, some it :: ts⟩ :: rest =>
      rw [getRepoGenerator_yield]
      have hmlt : rotationMeasure (rest ++ [⟨nm, ts⟩]) < m := by
        subst hm; simp [rotationMeasure_append, rotationMeasure]; omega
      have hitname : it.sourceName = nm := by
        refine htag ⟨nm, some it :: ts⟩ (List.mem_cons_self _ _) it ?_
        simp [SourceModel.yielded]
      have htag' : sourcesTagged (rest ++ [⟨nm, ts⟩]) := by
        intro s hs it' hit'
        rcases List.mem_append.mp hs with hs | hs
        · exact htag s (List.mem_cons_of_mem _ hs) it' hit'
        · simp at hs
          subst hs
          refine htag ⟨nm, some it :: ts⟩ (List.mem_cons_self _ _) it' ?_
          simp only [SourceModel.yielded] at hit' ⊢
          simp only [List.filterMap]
          exact List.mem_cons_of_mem _ hit'
      have huniq' : uniquelyNamed n (rest ++ [⟨nm, ts⟩]) :=
        @uniquelyNamed_rotate n ⟨nm, some it :: ts⟩ ⟨nm, ts⟩ rest rfl huniq
      have hrec := ih _ hmlt _ htag' huniq' rfl
      by_cases hcase : nm = n
      · have hin : it.sourceName = n := hitname.trans hcase
        rw [List.filter_cons_of_pos (by simp [hin]), hrec, yieldedOf_append,
          yieldedOf_cons, yieldedOf_cons,
          uniquelyNamed_head_rest huniq (by simpa using hcase)]
        simp [hcase, yieldedOf, SourceModel.yielded]
      · have hin : ¬ (it.sourceName = n) := by rw [hitname]; exact hcase
        rw [List.filter_cons_of_neg (by simp [hin]), hrec, yieldedOf_append,
          yieldedOf_cons, yieldedOf_cons]
        simp [hcase, yieldedOf]

/-- C8: with `continue_on_failure` (the default), the repo feed visits the
configured sources in strict round-robin order, advancing to the next source
after one candidate; a source raising on its turn is skipped for that turn but
stays in rotation; an exhausted source is removed permanently; the feed ends
exactly when every source is exhausted (the empty rotation yields nothing);
and within one source, candidates appear in the source's own yield order. -/
theorem c8_repo_feed_round_robin :
    (getRepoGenerator [] = [])
    ∧ (∀ n rest, getRepoGenerator (⟨n, []⟩ :: rest) = getRepoGenerator rest)
    ∧ (∀ n ts rest, getRepoGenerator (⟨n, none :: ts⟩ :: rest)
        = getRepoGenerator (rest ++ [⟨n, ts⟩]))
    ∧ (∀ n it ts rest, getRepoGenerator (⟨n, some it :: ts⟩ :: rest)
        = it :: getRepoGenerator (rest ++ [⟨n, ts⟩]))
    ∧ (∀ srcs n, sourcesTagged srcs → uniquelyNamed n srcs →
        (getRepoGenerator srcs).filter (fun it => it.sourceName = n)
          = yieldedOf n srcs) :=
  ⟨getRepoGenerator_none nextRepoItem_nil,
   getRepoGenerator_exhausted,
   getRepoGenerator_raised,
   getRepoGenerator_yield,
   getRepoGenerator_filter_source⟩

/-- Two demonstration sources for the C8 witness: `s1` yields two repos with a
raising turn in between, `s2` yields one repo. -/
def demoSources : List SourceModel :=
  [⟨"s1", [some (.ready ⟨"s1", "r1", []⟩), none, some (.ready ⟨"s1", "r2", []⟩)]⟩,
   ⟨"s2", [some (.thunk "s2" "r3" (some ⟨"s2", "r3", []⟩))]⟩]

/-- Witness for C8 at the demonstration sources. -/
theorem c8_repo_feed_round_robin_witness :
    sourcesTagged demoSources ∧ uniquelyNamed "s1" demoSources ∧
    (getRepoGenerator demoSources).filter (fun it => it.sourceName = "s1")
      = yieldedOf "s1" demoSources :=
  ⟨by decide, by decide,
   c8_repo_feed_round_robin.2.2.2.2 demoSources "s1" (by decide) (by decide)⟩

/-! ## Duplicate-name validation
(`utils.get_duplicates`, `CodeSurvey.__init__`, `Analyzer.__init__`) -/

/-- `utils.get_duplicates`: one pass with a `seen` set and a `duplicates`
list, appending an item to `duplicates` the first time it is seen again. -/
def get_duplicates {α : Type} [DecidableEq α] (items : List α) : List α :=
  (items.foldl
    (fun acc item =>
      if item ∈ acc.1 then
        if item ∈ acc.2 then acc else (acc.1, acc.2 ++ [item])
      else (acc.1 ++ [item], acc.2))
    (([], []) : List α × List α)).2

theorem get_duplicates_aux {α : Type} [DecidableEq α] (items : List α) :
    ∀ seen dups : List α,
      ((items.foldl
        (fun acc item =>
          if item ∈ acc.1 then
            if item ∈ acc.2 then acc else (acc.1, acc.2 ++ [item])
          else (acc.1 ++ [item], acc.2))
        (seen, dups)).2 = []
       ↔ (dups = [] ∧ items.Nodup ∧ ∀ x ∈ items, x ∉ seen)) := by
  induction items with
  | nil => intro seen dups; simp
  | cons a l ih =>
    intro seen dups
    simp only [List.foldl_cons]
    by_cases ha : a ∈ seen
    · rw [if_pos ha]
      by_cases hd : a ∈ dups
      · rw [if_pos hd]
        rw [ih seen dups]
        constructor
        · rintro ⟨h1, -, -⟩
          exact absurd (h1 ▸ hd) (List.not_mem_nil a)
        · rintro ⟨-, -, h3⟩
          exact absurd ha (h3 a (List.mem_cons_self a l))
      · rw [if_neg hd]
        rw [ih seen (dups ++ [a])]
        constructor
        · rintro ⟨h1, -, -⟩
          simp at h1
        · rintro ⟨-, -, h3⟩
          exact absurd ha (h3 a (List.mem_cons_self a l))
    · rw [if_neg ha]
      rw [ih (seen ++ [a]) dups]
      constructor
      · rintro ⟨h1, h2, h3⟩
        refine ⟨h1, ?_, ?_⟩
        · rw [List.nodup_cons]
          exact ⟨fun hal => (h3 a hal) (by simp), h2⟩
        · intro x hx
          rcases List.mem_cons.mp hx with rfl | hx
          · exact ha
          · intro hxs
            exact (h3 x hx) (by simp [hxs])
      · rintro ⟨h1, h2, h3⟩
        rw [List.nodup_cons] at h2
        refine ⟨h1, h2.2, ?_⟩
        intro x hx hxsa
        rcases List.mem_append.mp hxsa with hxs | hxa
        · exact (h3 x (List.mem_cons_of_mem a hx)) hxs
        · simp at hxa
          subst hxa
          exact h2.1 hx

/-- `get_duplicates` finds no duplicates exactly when the items are distinct. -/
theorem get_duplicates_nil_iff {α : Type} [DecidableEq α] (items : List α) :
    get_duplicates items = [] ↔ items.Nodup := by
  unfold get_duplicates
  rw [get_duplicates_aux]
  simp

/-- `CodeSurvey.__init__` duplicate-name validation: raises `ValueError` on
duplicate source names, then on duplicate analyzer names, before any survey
work starts. -/
def codeSurveyInit (sourceNames analyzerNames : List String) : Except String Unit :=
  if get_duplicates sourceNames ≠ [] then
    Except.error "Cannot instantiate CodeSurvey with duplicate source names"
  else if get_duplicates analyzerNames ≠ [] then
    Except.error "Cannot instantiate CodeSurvey with duplicate analyzer names"
  else Except.ok ()

/-- `Analyzer.__init__` duplicate-name validation: raises `ValueError` on
duplicate feature-finder names. -/
def analyzerInit (featureNames : List String) : Except String Unit :=
  if get_duplicates featureNames ≠ [] then
    Except.error "Cannot instantiate analyzer with duplicate feature names"
  else Except.ok ()

/-- C9: constructing a survey with duplicate source or analyzer names, or an
analyzer with duplicate feature-finder names, raises `ValueError` eagerly at
construction time; with all names distinct within each collection the
construction succeeds (and the run loop contains no duplicate-name check, so
no such failure can occur later). -/
theorem c9_duplicate_names_fail_fast :
    (∀ sourceNames analyzerNames : List String,
      codeSurveyInit sourceNames analyzerNames = Except.ok ()
        ↔ (sourceNames.Nodup ∧ analyzerNames.Nodup))
    ∧ (∀ featureNames : List String,
      analyzerInit featureNames = Except.ok () ↔ featureNames.Nodup) := by
  constructor
  · intro s a
    have hstep : codeSurveyInit s a = Except.ok ()
        ↔ (get_duplicates s = [] ∧ get_duplicates a = []) := by
      unfold codeSurveyInit
      by_cases hs : get_duplicates s = [] <;>
        by_cases ha : get_duplicates a = [] <;> simp [hs, ha]
    rw [hstep, get_duplicates_nil_iff, get_duplicates_nil_iff]
  · intro f
    have hstep : analyzerInit f = Except.ok () ↔ get_duplicates f = [] := by
      unfold analyzerInit
      by_cases hf : get_duplicates f = [] <;> simp [hf]
    rw [hstep, get_duplicates_nil_iff]

/-! ## The survey runner (`CodeSurveyRunner` in `core.py`)

The runner is modelled as a deterministic transition system parameterised by a
schedule choosing which pending futures complete each round (the only
nondeterminism of the Python program: all bookkeeping, persistence and
completion callbacks run on the single coordinating thread; only the deferred
computations run in workers, and they are modelled as data carried by their
jobs). `continue_on_failure` is fixed to its default `True`; fuel exhaustion
of the main loop models an external interrupt (the `finally` unwind runs in
both cases). Repo handles are given unique instance ids, standing for Python
object identity (`job.repo is repo`, and `current_repos.remove`). Ghost
fields (`admitted`, `cleanups`, `unitJobsStarted`, `maxPending`,
`maxRepoSum`, `maxRoundSum`) are observers only: no transition reads them. -/

/-- Codes of one analyzer for one repo: outcome data of
`prepare_code_representation` plus the finders' results (`prep = none` models
a failed preparation, which ignores every requested feature); `immediate`
distinguishes a pre-analyzed `Code` from a `CodeThunk`; `fails` marks a thunk
whose execution raises in the worker. -/
structure CodeSpec where
  key : String
  prep : Option (List (String × FeatureRes))
  immediate : Bool
  fails : Bool
deriving DecidableEq, Repr

/-- An analyzer (`Analyzer` in `analyzers/core.py`) as observed by the
runner: its name, its feature names (`get_feature_names()`), and per
`(source, repo key)` the code stream its `code_generator` produces (`none`
models the generator construction raising). -/
structure AnalyzerModel where
  name : String
  features : List String
  codes : List ((String × String) × Option (List CodeSpec))
deriving DecidableEq, Repr

/-- The codes an analyzer yields for a repo (empty for unknown repos). -/
def AnalyzerModel.codesFor (a : AnalyzerModel) (repo : RepoModel) :
    Option (List CodeSpec) :=
  (a.codes.lookup (repo.sourceName, repo.key)).getD (some [])

/-- `Analyzer.analyze_code`: every requested feature appears exactly once in
the result; a failed preparation ignores every requested feature. -/
def analyzeCode (analyzerName : String) (repo : RepoModel) (spec : CodeSpec)
    (features : List String) : CodeData :=
  { sourceName := repo.sourceName,
    repoKey := repo.key,
    analyzerName := analyzerName,
    key := spec.key,
    features := features.map (fun f =>
      match spec.prep with
      | none => (f, ⟨true, []⟩)
      | some m => (f, (m.lookup f).getD ⟨false, []⟩)) }

/-- A repo handle under analysis, with a unique instance id standing for
Python object identity. -/
structure RepoInst where
  id : Nat
  repo : RepoModel
deriving DecidableEq, Repr

/-- A deferred job recorded in `future_to_job` (`RepoJob` / `CodeJob`); the
future's eventual result is carried as data (`none` = the computation
raises). -/
inductive Job where
  | repoJob (sourceName key : String)
      (analyzer_features : List (String × List String)) (result : Option RepoModel)
  | codeJob (analyzerName : String) (repoId : Nat) (result : Option CodeData)
deriving DecidableEq, Repr

/-- Is this bookkeeping entry a repo-preparation job? -/
def Job.isRepoJob : Job → Bool
  | .repoJob _ _ _ _ => true
  | .codeJob _ _ _ => false

/-- Survey options fixed for a run (`CodeSurvey.__init__` and `run()`
arguments relevant to the orchestration core). -/
structure Config where
  max_workers : Nat
  max_repos : Option Nat
  max_codes : Option Nat
  save_code_features : Bool
  save_occurrences : Bool
  use_saved_features : Bool
deriving DecidableEq, Repr

/-- Mutable state of `CodeSurveyRunner.run` (ghost fields listed last). -/
structure RunnerState where
  db : Database
  future_to_job : List (Nat × Job)
  nextFutureId : Nat
  current_repos : List RepoInst
  nextRepoId : Nat
  completed_repo_count : Nat
  completed_code_count : Nat
  clock : Nat
  admitted : List Nat
  cleanups : List Nat
  unitJobsStarted : Nat
  maxPending : Nat
  maxRepoPending : Nat
  maxRepoSum : Nat
  maxRoundSum : Nat
deriving DecidableEq, Repr

/-- Pending repo-preparation jobs in the bookkeeping map. -/
def pendingRepoJobs (st : RunnerState) : Nat :=
  (st.future_to_job.filter (fun fj => fj.2.isRepoJob)).length

/-- Pending unit-analysis jobs of one repo handle
(`job for job in future_to_job.values() if isinstance(job, CodeJob) and job.repo is repo`). -/
def pendingCodeJobsFor (st : RunnerState) (id : Nat) : Nat :=
  (st.future_to_job.filter (fun fj =>
    match fj.2 with
    | .codeJob _ rid _ => rid = id
    | _ => false)).length

/-- The quantity `reached_max_repos` compares against `max_repos`:
in-flight + pending repo jobs + completed. -/
def repoSum (st : RunnerState) : Nat :=
  st.current_repos.length + pendingRepoJobs st + st.completed_repo_count

/-- Ghost observer: refresh the high-water marks. -/
def note (st : RunnerState) : RunnerState :=
  { st with maxPending := Nat.max st.maxPending st.future_to_job.length,
            maxRepoPending := Nat.max st.maxRepoPending (pendingRepoJobs st),
            maxRepoSum := Nat.max st.maxRepoSum (repoSum st) }

/-- `CodeSurveyRunner.reached_max_repos`. -/
def reachedMaxRepos (cfg : Config) (st : RunnerState) : Bool :=
  match cfg.max_repos with
  | none => false
  | some k => repoSum st ≥ k

/-- `CodeSurveyRunner.reached_max_codes`. -/
def reachedMaxCodes (cfg : Config) (st : RunnerState) : Bool :=
  match cfg.max_codes with
  | none => false
  | some m => st.completed_code_count ≥ m

/-- `CodeSurveyRunner.handle_code`: discard the result if `max_codes` is
already reached, otherwise persist the code's features and count it. -/
def handleCode (cfg : Config) (st : RunnerState) (code : CodeData) : RunnerState :=
  if reachedMaxCodes cfg st then st
  else
    let st := { st with
      db := st.db.save_code_features st.clock code cfg.save_occurrences,
      clock := st.clock + 1 }
    { st with completed_code_count := st.completed_code_count + 1 }

/-- `CodeSurveyRunner.handle_code_future`: a raising thunk is logged
(`continue_on_failure`), a successful one is handed to `handle_code`. -/
def handleCodeFuture (cfg : Config) (st : RunnerState)
    (result : Option CodeData) : RunnerState :=
  match result with
  | none => st
  | some code => handleCode cfg st code

/-- Completion of one repo inside `check_repo_completion`: persist the
repo-level aggregate, bump the completed counter (the progress-bar updates
and the repo-feature query are display-only reads), run `repo.cleanup()`
exactly here, and remove the instance from `current_repos`. -/
def completeRepo (cfg : Config) (st : RunnerState) (inst : RepoInst) : RunnerState :=
  let st := { st with
    db := st.db.save_repo_features inst.repo.sourceName inst.repo.key
      cfg.save_code_features }
  let st := { st with completed_repo_count := st.completed_repo_count + 1 }
  let st := { st with cleanups := st.cleanups ++ [inst.id] }
  let st := { st with
    current_repos := st.current_repos.filter (fun r => r.id ≠ inst.id) }
  note st

/-- `CodeSurveyRunner.check_repo_completion`: finish every current repo with
zero pending unit-analysis jobs (the Python function ignores its `repos`
argument and always scans `self.current_repos`; the completed list is fixed
before processing, exactly as in the source). -/
def checkRepoCompletion (cfg : Config) (st : RunnerState) : RunnerState :=
  let completed := st.current_repos.filter (fun r => pendingCodeJobsFor st r.id = 0)
  completed.foldl (completeRepo cfg) st

/-- The `get_code_features` closure of `handle_repo`: the features still to
be surveyed for one code (all of them unless `use_saved_features`). -/
def getCodeFeatures (cfg : Config) (st : RunnerState) (inst : RepoInst)
    (analyzerName : String) (features : List String) (codeKey : String) :
    List String :=
  if cfg.use_saved_features then
    st.db.get_code_missing_features inst.repo.sourceName inst.repo.key
      codeKey analyzerName features
  else features

/-- The inner code loop of `handle_repo` for one analyzer: the generator
skips codes whose outstanding-feature set is empty (without yielding them);
for each yielded item the runner first checks `reached_max_codes`
(`BreakException`, reported in the returned flag), then either submits a
deferred job for a `CodeThunk` or handles an immediate `Code` synchronously. -/
def processCodeItems (cfg : Config) (analyzerName : String) (inst : RepoInst)
    (features : List String) : List CodeSpec → RunnerState → RunnerState × Bool
  | [], st => (st, false)
  | spec :: rest, st =>
    let fs := getCodeFeatures cfg st inst analyzerName features spec.key
    if fs.length = 0 then processCodeItems cfg analyzerName inst features rest st
    else if reachedMaxCodes cfg st then (st, true)
    else if spec.immediate then
      let st := { st with unitJobsStarted := st.unitJobsStarted + 1 }
      let st := handleCode cfg st (analyzeCode analyzerName inst.repo spec fs)
      processCodeItems cfg analyzerName inst features rest st
    else
      let result :=
        if spec.fails then none else some (analyzeCode analyzerName inst.repo spec fs)
      let st := { st with
        future_to_job := st.future_to_job
          ++ [(st.nextFutureId, Job.codeJob analyzerName inst.id result)],
        nextFutureId := st.nextFutureId + 1,
        unitJobsStarted := st.unitJobsStarted + 1 }
      processCodeItems cfg analyzerName inst features rest (note st)

/-- The analyzer loop of `handle_repo`: analyzers absent from the repo's
outstanding `analyzer_features` are skipped (logged); a generator that raises
is logged and the loop continues; a `BreakException` from the code loop
aborts the remaining analyzers. -/
def runAnalyzers (cfg : Config) (inst : RepoInst)
    (analyzer_features : List (String × List String)) :
    List AnalyzerModel → RunnerState → RunnerState
  | [], st => st
  | a :: rest, st =>
    match analyzer_features.lookup a.name with
    | none => runAnalyzers cfg inst analyzer_features rest st
    | some features =>
      match a.codesFor inst.repo with
      | none => runAnalyzers cfg inst analyzer_features rest st
      | some specs =>
        match processCodeItems cfg a.name inst features specs st with
        | (st, true) => st
        | (st, false) => runAnalyzers cfg inst analyzer_features rest st

/-- `CodeSurveyRunner.handle_repo`: append the repo to `current_repos`, save
its metadata, raise `BreakException` immediately if `max_codes` is already
reached, otherwise stream every analyzer's codes; in all cases (`finally`)
run `check_repo_completion`. -/
def handleRepo (cfg : Config) (anas : List AnalyzerModel) (st : RunnerState)
    (repo : RepoModel) (analyzer_features : List (String × List String)) :
    RunnerState :=
  let inst : RepoInst := ⟨st.nextRepoId, repo⟩
  let st := { st with
    current_repos := st.current_repos ++ [inst],
    nextRepoId := st.nextRepoId + 1,
    admitted := st.admitted ++ [inst.id] }
  let st := note st
  let st := { st with
    db := st.db.save_repo_metadata st.clock repo.sourceName repo.key repo.metadata,
    clock := st.clock + 1 }
  let st :=
    if reachedMaxCodes cfg st then st
    else runAnalyzers cfg inst analyzer_features anas st
  checkRepoCompletion cfg st

/-- `CodeSurveyRunner.handle_repo_future`: a raising repo thunk is logged
(`continue_on_failure`), a fetched repo is handed to `handle_repo`. -/
def handleRepoFuture (cfg : Config) (anas : List AnalyzerModel)
    (st : RunnerState) (analyzer_features : List (String × List String))
    (result : Option RepoModel) : RunnerState :=
  match result with
  | none => st
  | some repo => handleRepo cfg anas st repo analyzer_features

/-- The per-candidate outstanding-feature resolution of `consume_repos`: the
`(analyzer, feature)` pairs not yet recorded at repo granularity (all of them
unless `use_saved_features`). -/
def outstandingFor (cfg : Config) (st : RunnerState)
    (analyzer_features : List (String × List String)) (item : RepoItem) :
    List (String × List String) :=
  if cfg.use_saved_features then
    st.db.get_repo_missing_analyzer_features item.sourceName item.key
      analyzer_features
  else analyzer_features

/-- `CodeSurveyRunner.consume_repos` loop body: draw candidates from the repo
feed while there is an idle worker (`len(future_to_job) < max_workers`) and
neither cap is reached; resolve the outstanding analyzer features, skip
duplicates of in-flight repos and fully analyzed repos, submit `RepoThunk`s
as deferred jobs, and handle ready `Repo`s synchronously. Returns the
remaining feed state with the runner state. -/
def consumeReposAux (cfg : Config) (anas : List AnalyzerModel)
    (analyzer_features : List (String × List String)) :
    Nat → List SourceModel → RunnerState → List SourceModel × RunnerState
  | 0, gen, st => (gen, st)
  | fuel + 1, gen, st =>
    if st.future_to_job.length < cfg.max_workers
        ∧ ¬ reachedMaxRepos cfg st ∧ ¬ reachedMaxCodes cfg st then
      match nextRepoItem gen with
      | none => (gen, st)
      | some (item, gen') =>
        let repo_analyzer_features := outstandingFor cfg st analyzer_features item
        if st.current_repos.any (fun r =>
            r.repo.sourceName = item.sourceName ∧ r.repo.key = item.key) then
          consumeReposAux cfg anas analyzer_features fuel gen' st
        else if repo_analyzer_features.length = 0 then
          consumeReposAux cfg anas analyzer_features fuel gen' st
        else
          match item with
          | .thunk sourceName key result =>
            let st := { st with
              future_to_job := st.future_to_job
                ++ [(st.nextFutureId,
                     Job.repoJob sourceName key repo_analyzer_features result)],
              nextFutureId := st.nextFutureId + 1 }
            consumeReposAux cfg anas analyzer_features fuel gen' (note st)
          | .ready repo =>
            consumeReposAux cfg anas analyzer_features fuel gen'
              (handleRepo cfg anas st repo repo_analyzer_features)
    else (gen, st)

/-- `CodeSurveyRunner.consume_repos` proper: `rotationMeasure` iterations
always suffice, since every iteration that recurses has drawn an item, which
strictly lowers the feed's measure (and with measure zero the feed is empty,
so the drawing loop stops at once either way). -/
def consumeRepos (cfg : Config) (anas : List AnalyzerModel)
    (analyzer_features : List (String × List String))
    (gen : List SourceModel) (st : RunnerState) : List SourceModel × RunnerState :=
  consumeReposAux cfg anas analyzer_features (rotationMeasure gen) gen st

/-- The futures reported done by one `concurrent.futures.wait` round: the
schedule's choices restricted to actually pending futures, deduplicated; when
that leaves nothing, the first pending future (the wait primitive returns a
nonempty set whenever jobs are pending). -/
def pickDone (raw : List Nat) (jobs : List (Nat × Job)) : List Nat :=
  let ids := jobs.map (fun fj => fj.1)
  let sel := dedupKeepFirst [] (raw.filter (fun i => i ∈ ids))
  if sel.isEmpty then ids.take 1 else sel

/-- Dispatch one finished future's completion callback (`job.callback(future)`
with the job still recorded in `future_to_job`, exactly as in the source). -/
def processFuture (cfg : Config) (anas : List AnalyzerModel)
    (st : RunnerState) (fid : Nat) : RunnerState :=
  match st.future_to_job.lookup fid with
  | none => st
  | some (.repoJob _ _ af result) => handleRepoFuture cfg anas st af result
  | some (.codeJob _ _ result) => handleCodeFuture cfg st result

/-- One full iteration body plus recursion of the `while True` loop of
`CodeSurveyRunner.run`: admit work, exit when the bookkeeping is empty,
otherwise wait for a batch of completions, run their callbacks, drop the
finished futures, and finish any completed repos. Fuel exhaustion models an
external interrupt; the returned flag is true for a normal exit. -/
def runLoop (cfg : Config) (anas : List AnalyzerModel)
    (analyzer_features : List (String × List String)) :
    Nat → List (List Nat) → List SourceModel → RunnerState → RunnerState × Bool
  | 0, _, _, st => (st, false)
  | fuel + 1, sched, gen, st =>
    let st := { st with maxRoundSum := Nat.max st.maxRoundSum (repoSum st) }
    let gs := consumeRepos cfg anas analyzer_features gen st
    let gen := gs.1
    let st := gs.2
    if st.future_to_job.length = 0 then (st, true)
    else
      let doneIds := pickDone (sched.headD []) st.future_to_job
      let st := doneIds.foldl (processFuture cfg anas) st
      let st := { st with
        future_to_job := st.future_to_job.filter (fun fj => fj.1 ∉ doneIds) }
      let st := checkRepoCompletion cfg st
      runLoop cfg anas analyzer_features fuel sched.tail gen st

/-- The initial runner state over a persisted store. -/
def initState (db0 : Database) : RunnerState :=
  { db := db0, future_to_job := [], nextFutureId := 0, current_repos := [],
    nextRepoId := 0, completed_repo_count := 0, completed_code_count := 0,
    clock := 0, admitted := [], cleanups := [], unitJobsStarted := 0,
    maxPending := 0, maxRepoPending := 0, maxRepoSum := 0, maxRoundSum := 0 }

/-- The `finally` unwind of `CodeSurveyRunner.run`: cancel the still-pending
futures (their callbacks never run), terminate the workers, run `cleanup()`
for every repo still in flight, close the store. -/
def finalizeRun (st : RunnerState) : RunnerState :=
  { st with cleanups := st.cleanups ++ st.current_repos.map (fun r => r.id) }

/-- Result of a survey run. -/
structure RunResult where
  final : RunnerState
  completedNormally : Bool
deriving DecidableEq, Repr

/-- `CodeSurvey.run`: initialize state over the given store and drive the
runner; `analyzer_features` is the survey's `{analyzer.name:
analyzer.get_feature_names()}` mapping. -/
def run (cfg : Config) (srcs : List SourceModel) (anas : List AnalyzerModel)
    (sched : List (List Nat)) (fuel : Nat) (db0 : Database) : RunResult :=
  let analyzer_features := anas.map (fun a => (a.name, a.features))
  let p := runLoop cfg anas analyzer_features fuel sched srcs (initState db0)
  { final := finalizeRun p.1, completedNormally := p.2 }

/-! ## Claim C10: results delivered after the cap are discarded -/

/-- C10: once `completed_code_count` has reached `max_codes`, `handle_code`
returns before saving or counting, so delivering any further completed
unit-analysis result to the coordinator — including the result of a deferred
job submitted before the cap was reached, or a failed one — leaves the entire
runner state, in particular the database and `completed_code_count`,
unchanged. -/
theorem c10_code_results_discarded (cfg : Config) (st : RunnerState)
    (h : reachedMaxCodes cfg st = true) :
    (∀ code, handleCode cfg st code = st)
    ∧ (∀ result, handleCodeFuture cfg st result = st) := by
  have hc : ∀ code, handleCode cfg st code = st := by
    intro code
    unfold handleCode
    rw [h]
    simp
  refine ⟨hc, ?_⟩
  intro result
  cases result with
  | none => rfl
  | some code => exact hc code

/-- A runner state whose code cap is already reached (`max_codes = 0`). -/
def c10St : RunnerState := initState Database.empty

/-- A configuration with `max_codes = 0`. -/
def c10Cfg : Config := ⟨1, none, some 0, true, true, true⟩

/-- Witness for C10: with the cap reached, a delivered result is discarded. -/
theorem c10_code_results_discarded_witness :
    reachedMaxCodes c10Cfg c10St = true
    ∧ handleCode c10Cfg c10St ⟨"s", "r", "a", "c", []⟩ = c10St :=
  ⟨by decide, (c10_code_results_discarded c10Cfg c10St (by decide)).1 _⟩

/-! ## Claim C3: the worker bound on pending jobs -/

/-- Counterexample run for C3: one worker (`max_workers = 1`), one ready repo
whose analyzer yields two `CodeThunk`s. -/
def c3Repo : RepoModel := ⟨"src", "r1", []⟩

/-- The C3 analyzer: two deferred code analyses for the repo. -/
def c3Analyzer : AnalyzerModel :=
  ⟨"ana", ["f"],
   [(("src", "r1"), some [
     ⟨"c1", some [("f", ⟨false, ["x"]⟩)], false, false⟩,
     ⟨"c2", some [("f", ⟨false, []⟩)], false, false⟩])]⟩

/-- The C3 source: yields the single ready repo. -/
def c3Source : SourceModel := ⟨"src", [some (.ready c3Repo)]⟩

/-- The C3 configuration: a single worker, no caps. -/
def c3Cfg : Config := ⟨1, none, none, true, true, true⟩

/-- The C3 run. -/
def c3Run : RunResult := run c3Cfg [c3Source] [c3Analyzer] [[0, 1]] 5 Database.empty

/-- C3 is false as stated: with worker count W = 1, admitting one ready repo
makes `handle_repo` submit all of its unit-analysis thunks without re-checking
the worker bound, so the bookkeeping map `future_to_job` holds 2 > W pending
deferred jobs (`maxPending` records the high-water mark of
`future_to_job.length`, updated at every submission). -/
theorem c3_counterexample :
    c3Cfg.max_workers = 1 ∧ c3Run.final.maxPending = 2 ∧ c3Run.completedNormally = true := by
  refine ⟨rfl, ?_, ?_⟩ <;> decide

/-! ## Claim C7: the `max_repos` cap -/

/-- The C7 repo. -/
def c7Repo : RepoModel := ⟨"src", "r1", []⟩

/-- The C7 analyzer (two deferred code analyses). -/
def c7Analyzer : AnalyzerModel :=
  ⟨"ana", ["f"],
   [(("src", "r1"), some [
     ⟨"c1", some [("f", ⟨false, ["x"]⟩)], false, false⟩,
     ⟨"c2", some [("f", ⟨false, []⟩)], false, false⟩])]⟩

/-- The C7 source: yields one `RepoThunk`. -/
def c7Source : SourceModel := ⟨"src", [some (.thunk "src" "r1" (some c7Repo))]⟩

/-- The C7 configuration: `max_repos = 1`. -/
def c7Cfg : Config := ⟨2, some 1, none, true, true, true⟩

/-- The C7 run. -/
def c7Run : RunResult := run c7Cfg [c7Source] [c7Analyzer] [[0], [0], [1, 2]] 9 Database.empty

/-- C7's third conjunct is false as stated: with `max_repos = 1`, while the
completion callback of a finished repo-preparation job runs, the job is still
recorded in `future_to_job` and its repository is already in `current_repos`,
so in-flight + pending + completed reaches 2 > 1 (`maxRepoSum` records the
high-water mark of that sum, refreshed at every admission and submission). -/
theorem c7_counterexample :
    c7Cfg.max_repos = some 1 ∧ c7Run.final.maxRepoSum = 2 := by
  refine ⟨rfl, ?_⟩
  decide

/-! ## Claim C6: the `max_codes` cap — scenario -/

/-- The C6 scenario repo. -/
def c6Repo : RepoModel := ⟨"src", "r1", []⟩

/-- The C6 analyzer: one feature, five analyzable units (immediate codes, one
occurrence of `f` each). -/
def c6Analyzer : AnalyzerModel :=
  ⟨"ana", ["f"],
   [(("src", "r1"), some [
     ⟨"c1", some [("f", ⟨false, ["x"]⟩)], true, false⟩,
     ⟨"c2", some [("f", ⟨false, ["x"]⟩)], true, false⟩,
     ⟨"c3", some [("f", ⟨false, ["x"]⟩)], true, false⟩,
     ⟨"c4", some [("f", ⟨false, ["x"]⟩)], true, false⟩,
     ⟨"c5", some [("f", ⟨false, ["x"]⟩)], true, false⟩])]⟩

/-- The C6 source. -/
def c6Source : SourceModel := ⟨"src", [some (.ready c6Repo)]⟩

/-- The C6 configuration: `max_codes = 2`. -/
def c6Cfg : Config := ⟨4, none, some 2, true, true, true⟩

/-- The C6 run. -/
def c6Run : RunResult := run c6Cfg [c6Source] [c6Analyzer] [] 5 Database.empty

/-! Preservation of `completed_code_count ≤ max_codes` through every runner
function: only `handle_code` increments the counter, and only behind its
`reached_max_codes` guard. -/

theorem handleCode_count_le {cfg : Config} {st : RunnerState} {code : CodeData}
    {m : Nat} (hm : cfg.max_codes = some m)
    (h : st.completed_code_count ≤ m) :
    (handleCode cfg st code).completed_code_count ≤ m := by
  unfold handleCode
  split
  · exact h
  · rename_i hr
    unfold reachedMaxCodes at hr
    rw [hm] at hr
    simp at hr
    simpa using hr

theorem handleCodeFuture_count_le {cfg : Config} {st : RunnerState}
    {result : Option CodeData} {m : Nat} (hm : cfg.max_codes = some m)
    (h : st.completed_code_count ≤ m) :
    (handleCodeFuture cfg st result).completed_code_count ≤ m := by
  cases result with
  | none => exact h
  | some code => exact handleCode_count_le hm h

theorem completeRepo_count_eq (cfg : Config) (st : RunnerState) (inst : RepoInst) :
    (completeRepo cfg st inst).completed_code_count = st.completed_code_count := rfl

theorem foldl_completeRepo_count_eq (cfg : Config) :
    ∀ (l : List RepoInst) (st : RunnerState),
      (l.foldl (completeRepo cfg) st).completed_code_count
        = st.completed_code_count := by
  intro l
  induction l with
  | nil => intro st; rfl
  | cons r rest ih =>
    intro st
    rw [List.foldl_cons, ih, completeRepo_count_eq]

theorem checkRepoCompletion_count_eq (cfg : Config) (st : RunnerState) :
    (checkRepoCompletion cfg st).completed_code_count = st.completed_code_count :=
  foldl_completeRepo_count_eq cfg _ st

theorem processCodeItems_count_le {cfg : Config} {an : String} {inst : RepoInst}
    {features : List String} {m : Nat} (hm : cfg.max_codes = some m) :
    ∀ (specs : List CodeSpec) (st : RunnerState),
      st.completed_code_count ≤ m →
      ((processCodeItems cfg an inst features specs st).1).completed_code_count ≤ m := by
  intro specs
  induction specs with
  | nil => intro st h; exact h
  | cons spec rest ih =>
    intro st h
    rw [processCodeItems]
    split
    · exact ih st h
    · split
      · exact h
      · split
        · exact ih _ (handleCode_count_le hm (by simpa using h))
        · exact ih _ (by simpa using h)

theorem runAnalyzers_count_le {cfg : Config} {inst : RepoInst}
    {af : List (String × List String)} {m : Nat} (hm : cfg.max_codes = some m) :
    ∀ (anas : List AnalyzerModel) (st : RunnerState),
      st.completed_code_count ≤ m →
      (runAnalyzers cfg inst af anas st).completed_code_count ≤ m := by
  intro anas
  induction anas with
  | nil => intro st h; exact h
  | cons a rest ih =>
    intro st h
    rw [runAnalyzers]
    split
    · exact ih st h
    · rename_i features hlook
      split
      · exact ih st h
      · rename_i specs hcodes
        split
        · rename_i st' heq
          have h2 := @processCodeItems_count_le cfg a.name inst features m hm specs st h
          rw [heq] at h2
          exact h2
        · rename_i st' heq
          refine ih st' ?_
          have h2 := @processCodeItems_count_le cfg a.name inst features m hm specs st h
          rw [heq] at h2
          exact h2

theorem handleRepo_count_le {cfg : Config} {anas : List AnalyzerModel}
    {st : RunnerState} {repo : RepoModel} {af : List (String × List String)}
    {m : Nat} (hm : cfg.max_codes = some m)
    (h : st.completed_code_count ≤ m) :
    (handleRepo cfg anas st repo af).completed_code_count ≤ m := by
  unfold handleRepo
  rw [checkRepoCompletion_count_eq]
  split
  · simpa using h
  · exact runAnalyzers_count_le hm anas _ (by simpa using h)

theorem processFuture_count_le {cfg : Config} {anas : List AnalyzerModel}
    {st : RunnerState} {fid : Nat} {m : Nat} (hm : cfg.max_codes = some m)
    (h : st.completed_code_count ≤ m) :
    (processFuture cfg anas st fid).completed_code_count ≤ m := by
  unfold processFuture
  split
  · exact h
  · rename_i af result heq
    cases result with
    | none => exact h
    | some repo => exact handleRepo_count_le hm h
  · rename_i result heq
    exact handleCodeFuture_count_le hm h

theorem foldl_processFuture_count_le {cfg : Config} {anas : List AnalyzerModel}
    {m : Nat} (hm : cfg.max_codes = some m) :
    ∀ (ids : List Nat) (st : RunnerState),
      st.completed_code_count ≤ m →
      (ids.foldl (processFuture cfg anas) st).completed_code_count ≤ m := by
  intro ids
  induction ids with
  | nil => intro st h; exact h
  | cons i rest ih =>
    intro st h
    rw [List.foldl_cons]
    exact ih _ (processFuture_count_le hm h)

theorem consumeReposAux_count_le {cfg : Config} {anas : List AnalyzerModel}
    {af : List (String × List String)} {m : Nat} (hm : cfg.max_codes = some m) :
    ∀ (fuel : Nat) (gen : List SourceModel) (st : RunnerState),
      st.completed_code_count ≤ m →
      ((consumeReposAux cfg anas af fuel gen st).2).completed_code_count ≤ m := by
  intro fuel
  induction fuel with
  | zero => intro gen st h; exact h
  | succ f ih =>
    intro gen st h
    rw [consumeReposAux]
    split
    · split
      · exact h
      · dsimp only
        split
        · exact ih _ _ h
        · split
          · exact ih _ _ h
          · split
            · exact ih _ _ (by simpa [note] using h)
            · exact ih _ _ (handleRepo_count_le hm h)
    · exact h

theorem runLoop_count_le {cfg : Config} {anas : List AnalyzerModel}
    {af : List (String × List String)} {m : Nat} (hm : cfg.max_codes = some m) :
    ∀ (fuel : Nat) (sched : List (List Nat)) (gen : List SourceModel)
      (st : RunnerState),
      st.completed_code_count ≤ m →
      ((runLoop cfg anas af fuel sched gen st).1).completed_code_count ≤ m := by
  intro fuel
  induction fuel with
  | zero => intro sched gen st h; exact h
  | succ f ih =>
    intro sched gen st h
    rw [runLoop]
    have h1 : ((consumeRepos cfg anas af gen
        { st with maxRoundSum := Nat.max st.maxRoundSum (repoSum st) }).2).completed_code_count ≤ m :=
      consumeReposAux_count_le hm _ _ _ (by simpa using h)
    split
    · exact h1
    · refine ih _ _ _ ?_
      rw [checkRepoCompletion_count_eq]
      simpa using foldl_processFuture_count_le hm _ _ h1

/-- Once `reached_max_codes` holds, the code loop of `handle_repo` starts no
new unit-analysis job and leaves the state untouched: the first yielded item
raises `BreakException` (aborting the remaining units early), and items whose
outstanding-feature set is empty are skipped by the generator. -/
theorem processCodeItems_reached_noop {cfg : Config} {an : String}
    {inst : RepoInst} {features : List String} (specs : List CodeSpec)
    (st : RunnerState) (h : reachedMaxCodes cfg st = true) :
    (processCodeItems cfg an inst features specs st).1 = st := by
  induction specs with
  | nil => rfl
  | cons spec rest ih =>
    rw [processCodeItems]
    split
    · exact ih
    · simp [h]

theorem finalizeRun_count_eq (st : RunnerState) :
    (finalizeRun st).completed_code_count = st.completed_code_count := rfl

/-- C6: with `max_codes = m` set, `completed_code_count ≤ m` holds throughout
(in particular at the end of every run, for every schedule, fuel and store);
once the cap is reached no new unit-analysis job is started and the remaining
units of the repo being processed are abandoned early; and in the concrete
scenario `max_codes = 2` with a repository of 5 analyzable units, the run
completes normally after exactly 2 unit analyses, the repository is still
marked completed (aggregate reflecting only the 2 analyzed units, each with
one occurrence of `f`), and its cleanup runs. -/
theorem c6_max_codes_cap :
    (∀ cfg srcs anas sched fuel db0 m, cfg.max_codes = some m →
      (run cfg srcs anas sched fuel db0).final.completed_code_count ≤ m)
    ∧ (∀ cfg an inst features specs st, reachedMaxCodes cfg st = true →
        (processCodeItems cfg an inst features specs st).1 = st)
    ∧ (c6Run.completedNormally = true
       ∧ c6Run.final.completed_code_count = 2
       ∧ c6Run.final.unitJobsStarted = 2
       ∧ c6Run.final.completed_repo_count = 1
       ∧ c6Run.final.cleanups = [0]
       ∧ c6Run.final.db.repo_features
           = [⟨2, "src", "r1", "ana", "f", 2, 2, 2⟩]) := by
  refine ⟨?_, ?_, ?_⟩
  · intro cfg srcs anas sched fuel db0 m hm
    have h := @runLoop_count_le cfg anas (anas.map (fun a => (a.name, a.features)))
      m hm fuel sched srcs (initState db0) (by simp [initState])
    simpa [run, finalizeRun] using h
  · intro cfg an inst features specs st h
    exact processCodeItems_reached_noop specs st h
  · refine ⟨?_, ?_, ?_, ?_, ?_, ?_⟩ <;> decide

/-- Witness for C6 at the scenario inputs. -/
theorem c6_max_codes_cap_witness :
    c6Cfg.max_codes = some 2
    ∧ (run c6Cfg [c6Source] [c6Analyzer] [] 5 Database.empty).final.completed_code_count ≤ 2 :=
  ⟨rfl, c6_max_codes_cap.1 c6Cfg [c6Source] [c6Analyzer] [] 5 Database.empty 2 rfl⟩

/-! Preservation of the repo-preparation-job bound for C3: repo jobs are
submitted only by `consume_repos`, behind its `< max_workers` guard. -/

/-- The C3 invariant: pending repo-preparation jobs (and their high-water
mark) never exceed the worker count. -/
def repoPendingOk (W : Nat) (st : RunnerState) : Prop :=
  pendingRepoJobs st ≤ W ∧ st.maxRepoPending ≤ W

theorem length_filter_append_single {α : Type} (q : α → Bool) (l : List α)
    (x : α) (hx : q x = false) :
    ((l ++ [x]).filter q).length = (l.filter q).length := by
  simp [List.filter_append, hx]

theorem length_filter_filter_le {α : Type} (p q : α → Bool) (l : List α) :
    ((l.filter p).filter q).length ≤ (l.filter q).length := by
  induction l with
  | nil => simp
  | cons a rest ih =>
    by_cases hp : p a = true <;> by_cases hq : q a = true <;>
      simp only [List.filter_cons, hp, hq, if_true, if_false, List.length_cons,
        Bool.false_eq_true] <;>
      omega

theorem note_repoPendingOk {W : Nat} {st : RunnerState}
    (h : repoPendingOk W st) : repoPendingOk W (note st) :=
  ⟨h.1, Nat.max_le.mpr ⟨h.2, h.1⟩⟩

theorem handleCode_future_eq (cfg : Config) (st : RunnerState) (code : CodeData) :
    (handleCode cfg st code).future_to_job = st.future_to_job := by
  unfold handleCode; split <;> rfl

theorem handleCode_maxRepoPending_eq (cfg : Config) (st : RunnerState)
    (code : CodeData) :
    (handleCode cfg st code).maxRepoPending = st.maxRepoPending := by
  unfold handleCode; split <;> rfl

theorem handleCode_repoPendingOk {W : Nat} {cfg : Config} {st : RunnerState}
    {code : CodeData} (h : repoPendingOk W st) :
    repoPendingOk W (handleCode cfg st code) := by
  obtain ⟨h1, h2⟩ := h
  constructor
  · simpa [pendingRepoJobs, handleCode_future_eq] using h1
  · simpa [handleCode_maxRepoPending_eq] using h2

theorem handleCodeFuture_repoPendingOk {W : Nat} {cfg : Config}
    {st : RunnerState} {result : Option CodeData} (h : repoPendingOk W st) :
    repoPendingOk W (handleCodeFuture cfg st result) := by
  cases result with
  | none => exact h
  | some code => exact handleCode_repoPendingOk h

theorem completeRepo_future_eq (cfg : Config) (st : RunnerState) (inst : RepoInst) :
    (completeRepo cfg st inst).future_to_job = st.future_to_job := rfl

theorem completeRepo_repoPendingOk {W : Nat} {cfg : Config} {st : RunnerState}
    {inst : RepoInst} (h : repoPendingOk W st) :
    repoPendingOk W (completeRepo cfg st inst) :=
  note_repoPendingOk ⟨h.1, h.2⟩

theorem foldl_completeRepo_repoPendingOk {W : Nat} {cfg : Config} :
    ∀ (l : List RepoInst) (st : RunnerState), repoPendingOk W st →
      repoPendingOk W (l.foldl (completeRepo cfg) st) := by
  intro l
  induction l with
  | nil => intro st h; exact h
  | cons r rest ih =>
    intro st h
    rw [List.foldl_cons]
    exact ih _ (completeRepo_repoPendingOk h)

theorem checkRepoCompletion_repoPendingOk {W : Nat} {cfg : Config}
    {st : RunnerState} (h : repoPendingOk W st) :
    repoPendingOk W (checkRepoCompletion cfg st) :=
  foldl_completeRepo_repoPendingOk _ st h

theorem processCodeItems_repoPendingOk {W : Nat} {cfg : Config} {an : String}
    {inst : RepoInst} {features : List String} :
    ∀ (specs : List CodeSpec) (st : RunnerState), repoPendingOk W st →
      repoPendingOk W ((processCodeItems cfg an inst features specs st).1) := by
  intro specs
  induction specs with
  | nil => intro st h; exact h
  | cons spec rest ih =>
    intro st h
    rw [processCodeItems]
    split
    · exact ih st h
    · split
      · exact h
      · split
        · exact ih _ (handleCode_repoPendingOk (by
            obtain ⟨h1, h2⟩ := h
            exact ⟨by simpa [pendingRepoJobs] using h1, by simpa using h2⟩))
        · refine ih _ (note_repoPendingOk ?_)
          obtain ⟨h1, h2⟩ := h
          constructor
          · simpa [pendingRepoJobs,
              length_filter_append_single (fun fj => fj.2.isRepoJob) _ _ rfl] using h1
          · simpa using h2

theorem runAnalyzers_repoPendingOk {W : Nat} {cfg : Config} {inst : RepoInst}
    {af : List (String × List String)} :
    ∀ (anas : List AnalyzerModel) (st : RunnerState), repoPendingOk W st →
      repoPendingOk W (runAnalyzers cfg inst af anas st) := by
  intro anas
  induction anas with
  | nil => intro st h; exact h
  | cons a rest ih =>
    intro st h
    rw [runAnalyzers]
    split
    · exact ih st h
    · rename_i features hlook
      split
      · exact ih st h
      · rename_i specs hcodes
        split
        · rename_i st' heq
          have h2 := @processCodeItems_repoPendingOk W cfg a.name inst features specs st h
          rw [heq] at h2
          exact h2
        · rename_i st' heq
          refine ih st' ?_
          have h2 := @processCodeItems_repoPendingOk W cfg a.name inst features specs st h
          rw [heq] at h2
          exact h2

theorem handleRepo_repoPendingOk {W : Nat} {cfg : Config}
    {anas : List AnalyzerModel} {st : RunnerState} {repo : RepoModel}
    {af : List (String × List String)} (h : repoPendingOk W st) :
    repoPendingOk W (handleRepo cfg anas st repo af) := by
  unfold handleRepo
  refine checkRepoCompletion_repoPendingOk ?_
  have hmid : repoPendingOk W (note { st with
      current_repos := st.current_repos ++ [⟨st.nextRepoId, repo⟩],
      nextRepoId := st.nextRepoId + 1,
      admitted := st.admitted ++ [st.nextRepoId] }) := by
    refine note_repoPendingOk ?_
    obtain ⟨h1, h2⟩ := h
    exact ⟨by simpa [pendingRepoJobs] using h1, by simpa using h2⟩
  obtain ⟨h1, h2⟩ := hmid
  split
  · exact ⟨by simpa [pendingRepoJobs] using h1, by simpa using h2⟩
  · refine runAnalyzers_repoPendingOk anas _ ?_
    exact ⟨by simpa [pendingRepoJobs] using h1, by simpa using h2⟩

theorem processFuture_repoPendingOk {W : Nat} {cfg : Config}
    {anas : List AnalyzerModel} {st : RunnerState} {fid : Nat}
    (h : repoPendingOk W st) :
    repoPendingOk W (processFuture cfg anas st fid) := by
  unfold processFuture
  split
  · exact h
  · rename_i af result heq
    cases result with
    | none => exact h
    | some repo => exact handleRepo_repoPendingOk h
  · exact handleCodeFuture_repoPendingOk h

theorem foldl_processFuture_repoPendingOk {W : Nat} {cfg : Config}
    {anas : List AnalyzerModel} :
    ∀ (ids : List Nat) (st : RunnerState), repoPendingOk W st →
      repoPendingOk W (ids.foldl (processFuture cfg anas) st) := by
  intro ids
  induction ids with
  | nil => intro st h; exact h
  | cons i rest ih =>
    intro st h
    rw [List.foldl_cons]
    exact ih _ (processFuture_repoPendingOk h)

theorem consumeReposAux_repoPendingOk {cfg : Config} {anas : List AnalyzerModel}
    {af : List (String × List String)} :
    ∀ (fuel : Nat) (gen : List SourceModel) (st : RunnerState),
      repoPendingOk cfg.max_workers st →
      repoPendingOk cfg.max_workers ((consumeReposAux cfg anas af fuel gen st).2) := by
  intro fuel
  induction fuel with
  | zero => intro gen st h; exact h
  | succ f ih =>
    intro gen st h
    rw [consumeReposAux]
    split
    · rename_i hguard
      split
      · exact h
      · dsimp only
        split
        · exact ih _ _ h
        · split
          · exact ih _ _ h
          · split
            · refine ih _ _ (note_repoPendingOk ?_)
              obtain ⟨h1, h2⟩ := h
              refine ⟨?_, by simpa using h2⟩
              have hlt : st.future_to_job.length < cfg.max_workers := hguard.1
              have hle : pendingRepoJobs st ≤ st.future_to_job.length :=
                List.length_filter_le _ _
              simp only [pendingRepoJobs, List.filter_append, List.length_append] at *
              simp only [List.filter_cons, List.filter_nil, Job.isRepoJob,
                if_true, List.length_cons, List.length_nil] at hle ⊢
              omega
            · exact ih _ _ (handleRepo_repoPendingOk h)
    · exact h

theorem runLoop_repoPendingOk {cfg : Config} {anas : List AnalyzerModel}
    {af : List (String × List String)} :
    ∀ (fuel : Nat) (sched : List (List Nat)) (gen : List SourceModel)
      (st : RunnerState), repoPendingOk cfg.max_workers st →
      repoPendingOk cfg.max_workers ((runLoop cfg anas af fuel sched gen st).1) := by
  intro fuel
  induction fuel with
  | zero => intro sched gen st h; exact h
  | succ f ih =>
    intro sched gen st h
    rw [runLoop]
    dsimp only
    have h0 : repoPendingOk cfg.max_workers
        { st with maxRoundSum := Nat.max st.maxRoundSum (repoSum st) } := by
      obtain ⟨h1, h2⟩ := h
      exact ⟨by simpa [pendingRepoJobs] using h1, by simpa using h2⟩
    have hcons : repoPendingOk cfg.max_workers
        ((consumeRepos cfg anas af gen
          { st with maxRoundSum := Nat.max st.maxRoundSum (repoSum st) }).2) :=
      @consumeReposAux_repoPendingOk cfg anas af (rotationMeasure gen) gen _ h0
    generalize hgs : consumeRepos cfg anas af gen
      { st with maxRoundSum := Nat.max st.maxRoundSum (repoSum st) } = gs at hcons ⊢
    obtain ⟨gen2, st2⟩ := gs
    split
    · exact hcons
    · refine ih _ _ _ (checkRepoCompletion_repoPendingOk ?_)
      have h2 := @foldl_processFuture_repoPendingOk cfg.max_workers cfg anas
        (pickDone (sched.headD []) st2.future_to_job) st2 hcons
      obtain ⟨h3, h4⟩ := h2
      constructor
      · calc pendingRepoJobs _ ≤ _ := by
              simpa [pendingRepoJobs] using
                length_filter_filter_le _ (fun fj : Nat × Job => fj.2.isRepoJob) _
          _ ≤ cfg.max_workers := h3
      · simpa using h4

/-- C3 (amended): the scheduler enforces the worker bound only at admission
of new repository candidates — `consume_repos` refuses to draw anything once
`len(future_to_job) ≥ max_workers` (first conjunct), and consequently the
number of pending repo-preparation jobs never exceeds `max_workers` at any
point of any run (second conjunct, via the `maxRepoPending` high-water mark);
the total pending count can exceed the bound only through the unit-analysis
jobs that `handle_repo` submits for an already-admitted repository without
re-checking the bound (the C3 counterexample). -/
theorem c3_amended_worker_guard :
    (∀ cfg anas af gen st, cfg.max_workers ≤ st.future_to_job.length →
      consumeRepos cfg anas af gen st = (gen, st))
    ∧ (∀ cfg srcs anas sched fuel db0,
        (run cfg srcs anas sched fuel db0).final.maxRepoPending
          ≤ cfg.max_workers) := by
  constructor
  · intro cfg anas af gen st h
    unfold consumeRepos
    cases hm : rotationMeasure gen with
    | zero => rfl
    | succ k =>
      rw [consumeReposAux, if_neg (fun hc => absurd hc.1 (Nat.not_lt.mpr h))]
  · intro cfg srcs anas sched fuel db0
    have h := @runLoop_repoPendingOk cfg anas (anas.map fun a => (a.name, a.features))
      fuel sched srcs (initState db0)
      ⟨by simp [initState, pendingRepoJobs], by simp [initState]⟩
    simpa [run, finalizeRun] using h.2

/-- A state with one pending deferred job, for the C3 witness. -/
def c3GuardSt : RunnerState :=
  { initState Database.empty with
    future_to_job := [(0, Job.codeJob "a" 0 none)], nextFutureId := 1 }

/-- Witness for C3's amended guard at a concrete saturated state. -/
theorem c3_amended_worker_guard_witness :
    c3Cfg.max_workers ≤ c3GuardSt.future_to_job.length
    ∧ consumeRepos c3Cfg [] [] [] c3GuardSt = ([], c3GuardSt) :=
  ⟨by decide, c3_amended_worker_guard.1 c3Cfg [] [] [] c3GuardSt (by decide)⟩

/-! ## Claim C5: exactly-once cleanup

`repo.cleanup()` is called in exactly two places: `check_repo_completion`
(for a completed repo, which is then removed from `current_repos`) and the
`finally` block of `run` (for repos still in flight). Candidates the feed
skips in `consume_repos` (duplicate of an in-flight repo, or no outstanding
features) never enter `current_repos` and never get a cleanup call. -/

/-- Two runner states with the same cleanup-relevant ghost components. -/
def sameGhosts (a b : RunnerState) : Prop :=
  a.admitted = b.admitted ∧ a.cleanups = b.cleanups
  ∧ a.current_repos = b.current_repos ∧ a.nextRepoId = b.nextRepoId
  ∧ a.completed_repo_count = b.completed_repo_count

theorem sameGhosts_refl (a : RunnerState) : sameGhosts a a := ⟨rfl, rfl, rfl, rfl, rfl⟩

theorem sameGhosts_trans {a b c : RunnerState} (h1 : sameGhosts a b)
    (h2 : sameGhosts b c) : sameGhosts a c :=
  ⟨h1.1.trans h2.1, h1.2.1.trans h2.2.1, h1.2.2.1.trans h2.2.2.1,
   h1.2.2.2.1.trans h2.2.2.2.1, h1.2.2.2.2.trans h2.2.2.2.2⟩

/-- The lifecycle invariant behind exactly-once cleanup: admitted instance
ids are fresh and unique; an admitted id still in flight has zero cleanup
calls, one otherwise. -/
def cleanupInv (st : RunnerState) : Prop :=
  (∀ id ∈ st.admitted, id < st.nextRepoId)
  ∧ (∀ r ∈ st.current_repos, r.id < st.nextRepoId)
  ∧ (∀ r ∈ st.current_repos, r.id ∈ st.admitted)
  ∧ (st.current_repos.map RepoInst.id).Nodup
  ∧ (∀ id ∈ st.cleanups, id < st.nextRepoId)
  ∧ (∀ id ∈ st.admitted,
      (id ∈ st.current_repos.map RepoInst.id ∧ st.cleanups.count id = 0)
      ∨ (id ∉ st.current_repos.map RepoInst.id ∧ st.cleanups.count id = 1))

theorem cleanupInv_congr {a b : RunnerState} (hg : sameGhosts a b)
    (h : cleanupInv b) : cleanupInv a := by
  obtain ⟨h1, h2, h3, h4, h5⟩ := hg
  unfold cleanupInv at *
  rw [h1, h2, h3, h4]
  exact h

theorem note_sameGhosts (st : RunnerState) : sameGhosts (note st) st :=
  ⟨rfl, rfl, rfl, rfl, rfl⟩

theorem handleCode_sameGhosts (cfg : Config) (st : RunnerState)
    (code : CodeData) : sameGhosts (handleCode cfg st code) st := by
  unfold handleCode
  split
  · exact sameGhosts_refl st
  · exact ⟨rfl, rfl, rfl, rfl, rfl⟩

theorem handleCodeFuture_sameGhosts (cfg : Config) (st : RunnerState)
    (result : Option CodeData) :
    sameGhosts (handleCodeFuture cfg st result) st := by
  cases result with
  | none => exact sameGhosts_refl st
  | some code => exact handleCode_sameGhosts cfg st code

theorem processCodeItems_sameGhosts (cfg : Config) (an : String)
    (inst : RepoInst) (features : List String) :
    ∀ (specs : List CodeSpec) (st : RunnerState),
      sameGhosts ((processCodeItems cfg an inst features specs st).1) st := by
  intro specs
  induction specs with
  | nil => intro st; exact sameGhosts_refl st
  | cons spec rest ih =>
    intro st
    rw [processCodeItems]
    split
    · exact ih st
    · split
      · exact sameGhosts_refl st
      · split
        · refine sameGhosts_trans (ih _) ?_
          refine sameGhosts_trans (handleCode_sameGhosts _ _ _) ?_
          exact ⟨rfl, rfl, rfl, rfl, rfl⟩
        · exact sameGhosts_trans (ih _) ⟨rfl, rfl, rfl, rfl, rfl⟩

theorem runAnalyzers_sameGhosts (cfg : Config) (inst : RepoInst)
    (af : List (String × List String)) :
    ∀ (anas : List AnalyzerModel) (st : RunnerState),
      sameGhosts (runAnalyzers cfg inst af anas st) st := by
  intro anas
  induction anas with
  | nil => intro st; exact sameGhosts_refl st
  | cons a rest ih =>
    intro st
    rw [runAnalyzers]
    split
    · exact ih st
    · rename_i features hlook
      split
      · exact ih st
      · rename_i specs hcodes
        split
        · rename_i st' heq
          have h2 := processCodeItems_sameGhosts cfg a.name inst features specs st
          rw [heq] at h2
          exact h2
        · rename_i st' heq
          have h2 := processCodeItems_sameGhosts cfg a.name inst features specs st
          rw [heq] at h2
          exact sameGhosts_trans (ih st') h2

theorem count_eq_zero_of_lt {l : List Nat} {n bound : Nat}
    (hb : ∀ id ∈ l, id < bound) (hn : bound ≤ n) : l.count n = 0 :=
  List.count_eq_zero.mpr (fun hmem => absurd (hb n hmem) (Nat.not_lt.mpr hn))

/-- `handle_repo` admission preserves the cleanup invariant: the fresh
instance enters `current_repos` and `admitted` with zero cleanup calls. -/
theorem admitRepo_cleanupInv {st : RunnerState} (h : cleanupInv st)
    (repo : RepoModel) :
    cleanupInv { st with
      current_repos := st.current_repos ++ [⟨st.nextRepoId, repo⟩],
      nextRepoId := st.nextRepoId + 1,
      admitted := st.admitted ++ [st.nextRepoId] } := by
  obtain ⟨hA, hB, hC, hD, hG, hE⟩ := h
  refine ⟨?_, ?_, ?_, ?_, ?_, ?_⟩ <;> dsimp only
  · intro id hid
    rcases List.mem_append.mp hid with hid | hid
    · exact Nat.lt_succ_of_lt (hA id hid)
    · simp at hid; omega
  · intro r hr
    rcases List.mem_append.mp hr with hr | hr
    · exact Nat.lt_succ_of_lt (hB r hr)
    · simp at hr; subst hr; simp
  · intro r hr
    rcases List.mem_append.mp hr with hr | hr
    · exact List.mem_append_left _ (hC r hr)
    · simp at hr; subst hr; simp
  · simp only [List.map_append, List.map_cons, List.map_nil]
    rw [List.nodup_append]
    refine ⟨hD, List.nodup_singleton _, ?_⟩
    intro id hid hid2
    simp at hid2
    subst hid2
    rcases List.mem_map.mp hid with ⟨r, hr, hrid⟩
    exact absurd (hrid ▸ hB r hr) (by simp)
  · intro id hid
    exact Nat.lt_succ_of_lt (hG id hid)
  · intro id hid
    rcases List.mem_append.mp hid with hid | hid
    · have hlt := hA id hid
      rcases hE id hid with ⟨hmem, hcnt⟩ | ⟨hmem, hcnt⟩
      · left
        refine ⟨?_, hcnt⟩
        simp only [List.map_append, List.map_cons, List.map_nil]
        exact List.mem_append_left _ hmem
      · right
        refine ⟨?_, hcnt⟩
        simp only [List.map_append, List.map_cons, List.map_nil]
        intro hmem2
        rcases List.mem_append.mp hmem2 with hmem2 | hmem2
        · exact hmem hmem2
        · simp at hmem2; omega
    · simp at hid
      subst hid
      left
      constructor
      · simp
      · exact count_eq_zero_of_lt hG (Nat.le_refl _)

/-- Completing one in-flight repo preserves the invariant: its cleanup count
goes from zero to one as it leaves `current_repos`. -/
theorem completeRepo_cleanupInv {cfg : Config} {st : RunnerState}
    {inst : RepoInst} (h : cleanupInv st) (hin : inst ∈ st.current_repos) :
    cleanupInv (completeRepo cfg st inst) := by
  obtain ⟨hA, hB, hC, hD, hG, hE⟩ := h
  have hfs : (st.current_repos.filter (fun r => r.id ≠ inst.id)).Sublist
      st.current_repos := List.filter_sublist _
  refine ⟨hA, ?_, ?_, ?_, ?_, ?_⟩ <;> dsimp only [completeRepo, note]
  · intro r hr
    exact hB r (hfs.mem hr)
  · intro r hr
    exact hC r (hfs.mem hr)
  · exact (hfs.map RepoInst.id).nodup hD
  · intro id hid
    rcases List.mem_append.mp hid with hid | hid
    · exact hG id hid
    · simp at hid
      subst hid
      exact hB inst hin
  · intro id hid
    rcases hE id hid with ⟨hmem, hcnt⟩ | ⟨hmem, hcnt⟩
    · by_cases hii : id = inst.id
      · subst hii
        right
        constructor
        · intro hmem2
          rcases List.mem_map.mp hmem2 with ⟨r, hr, hrid⟩
          have := List.of_mem_filter hr
          simp [hrid] at this
        · rw [List.count_append, hcnt]
          simp
      · left
        constructor
        · rcases List.mem_map.mp hmem with ⟨r, hr, hrid⟩
          refine List.mem_map.mpr ⟨r, List.mem_filter.mpr ⟨hr, ?_⟩, hrid⟩
          simp [hrid, hii]
        · rw [List.count_append, hcnt]
          simp [hii]
    · have hii : id ≠ inst.id := by
        intro hcontra
        subst hcontra
        exact hmem (List.mem_map.mpr ⟨inst, hin, rfl⟩)
      right
      constructor
      · intro hmem2
        rcases List.mem_map.mp hmem2 with ⟨r, hr, hrid⟩
        exact hmem (List.mem_map.mpr ⟨r, hfs.mem hr, hrid⟩)
      · rw [List.count_append, hcnt]
        simp [hii]

theorem completeRepo_current_eq (cfg : Config) (st : RunnerState)
    (inst : RepoInst) :
    (completeRepo cfg st inst).current_repos
      = st.current_repos.filter (fun r => r.id ≠ inst.id) := rfl

theorem foldl_completeRepo_cleanupInv {cfg : Config} :
    ∀ (l : List RepoInst) (st : RunnerState), cleanupInv st →
      (∀ r ∈ l, r ∈ st.current_repos) → (l.map RepoInst.id).Nodup →
      cleanupInv (l.foldl (completeRepo cfg) st) := by
  intro l
  induction l with
  | nil => intro st h _ _; exact h
  | cons r rest ih =>
    intro st h hsub hnd
    rw [List.foldl_cons]
    have hin : r ∈ st.current_repos := hsub r (List.mem_cons_self r rest)
    refine ih _ (completeRepo_cleanupInv h hin) ?_ ?_
    · intro r' hr'
      rw [completeRepo_current_eq]
      refine List.mem_filter.mpr ⟨hsub r' (List.mem_cons_of_mem r hr'), ?_⟩
      simp only [List.map_cons, List.nodup_cons] at hnd
      have : r'.id ≠ r.id := by
        intro hcontra
        exact hnd.1 (List.mem_map.mpr ⟨r', hr', hcontra⟩)
      simpa using this
    · simp only [List.map_cons, List.nodup_cons] at hnd
      exact hnd.2

theorem checkRepoCompletion_cleanupInv {cfg : Config} {st : RunnerState}
    (h : cleanupInv st) : cleanupInv (checkRepoCompletion cfg st) := by
  unfold checkRepoCompletion
  have hfs : (st.current_repos.filter
      (fun r => pendingCodeJobsFor st r.id = 0)).Sublist st.current_repos :=
    List.filter_sublist _
  refine foldl_completeRepo_cleanupInv _ st h ?_ ?_
  · intro r hr
    exact hfs.mem hr
  · exact (hfs.map RepoInst.id).nodup h.2.2.2.1

theorem handleRepo_cleanupInv {cfg : Config} {anas : List AnalyzerModel}
    {st : RunnerState} {repo : RepoModel} {af : List (String × List String)}
    (h : cleanupInv st) : cleanupInv (handleRepo cfg anas st repo af) := by
  unfold handleRepo
  refine checkRepoCompletion_cleanupInv ?_
  have h1 := admitRepo_cleanupInv h repo
  have h2 : cleanupInv (note { st with
      current_repos := st.current_repos ++ [⟨st.nextRepoId, repo⟩],
      nextRepoId := st.nextRepoId + 1,
      admitted := st.admitted ++ [st.nextRepoId] }) :=
    cleanupInv_congr (note_sameGhosts _) h1
  split
  · exact cleanupInv_congr ⟨rfl, rfl, rfl, rfl, rfl⟩ h2
  · refine cleanupInv_congr (runAnalyzers_sameGhosts cfg _ af anas _) ?_
    exact cleanupInv_congr ⟨rfl, rfl, rfl, rfl, rfl⟩ h2

theorem processFuture_cleanupInv {cfg : Config} {anas : List AnalyzerModel}
    {st : RunnerState} {fid : Nat} (h : cleanupInv st) :
    cleanupInv (processFuture cfg anas st fid) := by
  unfold processFuture
  split
  · exact h
  · rename_i af result heq
    cases result with
    | none => exact h
    | some repo => exact handleRepo_cleanupInv h
  · exact cleanupInv_congr (handleCodeFuture_sameGhosts cfg st _) h

theorem foldl_processFuture_cleanupInv {cfg : Config} {anas : List AnalyzerModel} :
    ∀ (ids : List Nat) (st : RunnerState), cleanupInv st →
      cleanupInv (ids.foldl (processFuture cfg anas) st) := by
  intro ids
  induction ids with
  | nil => intro st h; exact h
  | cons i rest ih =>
    intro st h
    rw [List.foldl_cons]
    exact ih _ (processFuture_cleanupInv h)

theorem consumeReposAux_cleanupInv {cfg : Config} {anas : List AnalyzerModel}
    {af : List (String × List String)} :
    ∀ (fuel : Nat) (gen : List SourceModel) (st : RunnerState), cleanupInv st →
      cleanupInv ((consumeReposAux cfg anas af fuel gen st).2) := by
  intro fuel
  induction fuel with
  | zero => intro gen st h; exact h
  | succ f ih =>
    intro gen st h
    rw [consumeReposAux]
    split
    · split
      · exact h
      · dsimp only
        split
        · exact ih _ _ h
        · split
          · exact ih _ _ h
          · split
            · refine ih _ _ (cleanupInv_congr ?_ h)
              exact sameGhosts_trans (note_sameGhosts _) ⟨rfl, rfl, rfl, rfl, rfl⟩
            · exact ih _ _ (handleRepo_cleanupInv h)
    · exact h

theorem runLoop_cleanupInv {cfg : Config} {anas : List AnalyzerModel}
    {af : List (String × List String)} :
    ∀ (fuel : Nat) (sched : List (List Nat)) (gen : List SourceModel)
      (st : RunnerState), cleanupInv st →
      cleanupInv ((runLoop cfg anas af fuel sched gen st).1) := by
  intro fuel
  induction fuel with
  | zero => intro sched gen st h; exact h
  | succ f ih =>
    intro sched gen st h
    rw [runLoop]
    dsimp only
    have h0 : cleanupInv { st with
        maxRoundSum := Nat.max st.maxRoundSum (repoSum st) } :=
      cleanupInv_congr ⟨rfl, rfl, rfl, rfl, rfl⟩ h
    have hcons : cleanupInv ((consumeRepos cfg anas af gen
        { st with maxRoundSum := Nat.max st.maxRoundSum (repoSum st) }).2) :=
      @consumeReposAux_cleanupInv cfg anas af (rotationMeasure gen) gen _ h0
    generalize hgs : consumeRepos cfg anas af gen
      { st with maxRoundSum := Nat.max st.maxRoundSum (repoSum st) } = gs at hcons ⊢
    obtain ⟨gen2, st2⟩ := gs
    split
    · exact hcons
    · refine ih _ _ _ (checkRepoCompletion_cleanupInv ?_)
      have h2 := @foldl_processFuture_cleanupInv cfg anas
        (pickDone (sched.headD []) st2.future_to_job) st2 hcons
      exact cleanupInv_congr ⟨rfl, rfl, rfl, rfl, rfl⟩ h2

/-- C5 (amended): every repository handle *admitted to analysis* (entering
`current_repos` via `handle_repo`, recorded in the `admitted` ghost) has its
cleanup action invoked exactly once before the run ends — whether it
completed normally, started zero unit jobs, or was still in flight when the
run stopped (the `finally` block cleans those). Candidate handles skipped by
`consume_repos` are the exception the counterexample exhibits. -/
theorem c5_amended_cleanup_once (cfg : Config) (srcs : List SourceModel)
    (anas : List AnalyzerModel) (sched : List (List Nat)) (fuel : Nat)
    (db0 : Database) :
    ∀ id ∈ (run cfg srcs anas sched fuel db0).final.admitted,
      ((run cfg srcs anas sched fuel db0).final.cleanups).count id = 1 := by
  intro id hid
  have hinv : cleanupInv ((runLoop cfg anas
      (anas.map fun a => (a.name, a.features)) fuel sched srcs
      (initState db0)).1) := by
    refine runLoop_cleanupInv fuel sched srcs (initState db0) ?_
    refine ⟨?_, ?_, ?_, ?_, ?_, ?_⟩ <;> simp [initState]
  obtain ⟨hA, hB, hC, hD, hG, hE⟩ := hinv
  simp only [run, finalizeRun] at hid ⊢
  rcases hE id hid with ⟨hmem, hcnt⟩ | ⟨hmem, hcnt⟩
  · rw [List.count_append, hcnt, List.count_eq_one_of_mem hD hmem]
  · rw [List.count_append, hcnt, List.count_eq_zero.mpr hmem]

/-- A store in which repo `r1` already has a persisted aggregate for the only
configured feature, so the feed skips it as fully analyzed. -/
def c5Db : Database :=
  { repo_metadata := [], code_features := [],
    repo_features := [⟨0, "src", "r1", "ana", "f", 1, 1, 1⟩] }

/-- The C5 repo handle: created (yielded) by its source. -/
def c5Repo : RepoModel := ⟨"src", "r1", []⟩

/-- The C5 source: yields the ready repo handle. -/
def c5Source : SourceModel := ⟨"src", [some (.ready c5Repo)]⟩

/-- The C5 analyzer. -/
def c5Analyzer : AnalyzerModel :=
  ⟨"ana", ["f"], [(("src", "r1"), some [⟨"c1", some [("f", ⟨false, ["x"]⟩)], true, false⟩])]⟩

/-- The C5 configuration (defaults). -/
def c5Cfg : Config := ⟨1, none, none, true, true, true⟩

/-- The C5 counterexample run: the candidate is skipped as fully analyzed. -/
def c5Run : RunResult := run c5Cfg [c5Source] [c5Analyzer] [] 3 c5Db

/-- C5 is false as stated: the source creates and yields a repository handle,
but because its aggregate is already recorded, `consume_repos` skips the
candidate without ever invoking its cleanup action — the run completes with
zero cleanup invocations (never reaching `check_repo_completion` or the
`finally` cleanup, which only cover repos in `current_repos`). -/
theorem c5_counterexample :
    getRepoGenerator [c5Source] = [.ready c5Repo]
    ∧ c5Run.completedNormally = true
    ∧ c5Run.final.admitted = []
    ∧ c5Run.final.cleanups = [] := by
  refine ⟨?_, by decide, by decide, by decide⟩
  show getRepoGenerator (⟨"src", [some (.ready c5Repo)]⟩ :: []) = [.ready c5Repo]
  rw [getRepoGenerator_yield, List.nil_append, getRepoGenerator_exhausted,
    getRepoGenerator_none nextRepoItem_nil]

/-- Witness for C5's amended theorem at the C6 scenario run. -/
theorem c5_amended_cleanup_once_witness :
    0 ∈ (run c6Cfg [c6Source] [c6Analyzer] [] 5 Database.empty).final.admitted
    ∧ ((run c6Cfg [c6Source] [c6Analyzer] [] 5 Database.empty).final.cleanups).count 0 = 1 :=
  ⟨by decide,
   c5_amended_cleanup_once c6Cfg [c6Source] [c6Analyzer] [] 5 Database.empty 0 (by decide)⟩

/-! ## Claim C7: the `max_repos` cap — accounting machinery -/

/-- In-flight plus completed repositories. -/
def curComp (st : RunnerState) : Nat :=
  st.current_repos.length + st.completed_repo_count

theorem length_filter_lt_of_mem {α : Type} {p : α → Bool} {l : List α} {a : α}
    (ha : a ∈ l) (hpa : p a = false) : (l.filter p).length < l.length := by
  induction l with
  | nil => cases ha
  | cons b rest ih =>
    rcases List.mem_cons.mp ha with rfl | ha
    · rw [List.filter_cons, hpa]
      simp only [Bool.false_eq_true, if_false, List.length_cons]
      exact Nat.lt_succ_of_le (List.length_filter_le p rest)
    · rw [List.filter_cons]
      split
      · simpa using ih ha
      · exact Nat.lt_succ_of_lt (ih ha)

theorem length_filter_and_split {α : Type} (p q : α → Bool) (l : List α) :
    (l.filter p).length
      = (l.filter (fun x => p x && q x)).length
        + (l.filter (fun x => p x && !q x)).length := by
  induction l with
  | nil => simp
  | cons a rest ih =>
    by_cases hp : p a = true <;> by_cases hq : q a = true <;>
      simp only [List.filter_cons, hp, hq, Bool.true_and, Bool.false_and,
        Bool.not_true, Bool.not_false, Bool.and_false, Bool.and_true,
        if_true, if_false, Bool.false_eq_true, List.length_cons] <;>
      omega

theorem lookup_mem {i : Nat} {j : Job} :
    ∀ {l : List (Nat × Job)}, l.lookup i = some j → (i, j) ∈ l := by
  intro l
  induction l with
  | nil => intro h; cases h
  | cons fj rest ih =>
    intro h
    rw [List.lookup] at h
    split at h
    · rename_i heq
      cases h
      have : i = fj.1 := by simpa using heq
      subst this
      exact List.mem_cons_self _ _
    · exact List.mem_cons_of_mem _ (ih h)

theorem dedupKeepFirst_nodup {α : Type} [DecidableEq α] :
    ∀ (l seen : List α),
      (dedupKeepFirst seen l).Nodup ∧ ∀ x ∈ dedupKeepFirst seen l, x ∉ seen := by
  intro l
  induction l with
  | nil => intro seen; exact ⟨List.nodup_nil, by simp [dedupKeepFirst]⟩
  | cons a rest ih =>
    intro seen
    rw [dedupKeepFirst]
    split
    · exact ih seen
    · rename_i ha
      obtain ⟨hnd, hni⟩ := ih (a :: seen)
      constructor
      · rw [List.nodup_cons]
        exact ⟨fun hmem => (hni a hmem) (List.mem_cons_self a seen), hnd⟩
      · intro x hx
        rcases List.mem_cons.mp hx with rfl | hx
        · exact ha
        · exact fun hxs => (hni x hx) (List.mem_cons_of_mem a hxs)

theorem pickDone_nodup (raw : List Nat) (jobs : List (Nat × Job)) :
    (pickDone raw jobs).Nodup := by
  unfold pickDone
  dsimp only
  split
  · match jobs with
    | [] => simp
    | fj :: rest => simp
  · exact (dedupKeepFirst_nodup _ []).1

/-- A bookkeeping map extended only by non-repo jobs has the same number of
pending repo-preparation jobs. -/
theorem pending_append_nonrepo {l extra : List (Nat × Job)}
    (hx : ∀ fj ∈ extra, fj.2.isRepoJob = false) :
    ((l ++ extra).filter (fun fj => fj.2.isRepoJob)).length
      = (l.filter (fun fj => fj.2.isRepoJob)).length := by
  rw [List.filter_append, List.length_append]
  have : extra.filter (fun fj => fj.2.isRepoJob) = [] :=
    List.filter_eq_nil.mpr (fun fj hfj => by simp [hx fj hfj])
  rw [this]
  simp

theorem foldl_completeRepo_future_eq (cfg : Config) :
    ∀ (l : List RepoInst) (st : RunnerState),
      (l.foldl (completeRepo cfg) st).future_to_job = st.future_to_job := by
  intro l
  induction l with
  | nil => intro st; rfl
  | cons r rest ih =>
    intro st
    rw [List.foldl_cons, ih, completeRepo_future_eq]

theorem checkRepoCompletion_future_eq (cfg : Config) (st : RunnerState) :
    (checkRepoCompletion cfg st).future_to_job = st.future_to_job :=
  foldl_completeRepo_future_eq cfg _ st

theorem handleCodeFuture_future_eq (cfg : Config) (st : RunnerState)
    (result : Option CodeData) :
    (handleCodeFuture cfg st result).future_to_job = st.future_to_job := by
  cases result with
  | none => rfl
  | some code => exact handleCode_future_eq cfg st code

theorem processCodeItems_future_extend (cfg : Config) (an : String)
    (inst : RepoInst) (features : List String) :
    ∀ (specs : List CodeSpec) (st : RunnerState),
      ∃ extra, ((processCodeItems cfg an inst features specs st).1).future_to_job
          = st.future_to_job ++ extra
        ∧ ∀ fj ∈ extra, fj.2.isRepoJob = false := by
  intro specs
  induction specs with
  | nil => intro st; exact ⟨[], by simp [processCodeItems], by simp⟩
  | cons spec rest ih =>
    intro st
    rw [processCodeItems]
    split
    · exact ih st
    · split
      · exact ⟨[], by simp, by simp⟩
      · split
        · obtain ⟨extra, he, hx⟩ := ih (handleCode cfg
            { st with unitJobsStarted := st.unitJobsStarted + 1 }
            (analyzeCode an inst.repo spec _))
          refine ⟨extra, ?_, hx⟩
          rw [he, handleCode_future_eq]
        · rename_i hfs hreach himm
          obtain ⟨extra, he, hx⟩ := ih _
          refine ⟨(st.nextFutureId,
            Job.codeJob an inst.id (if spec.fails = true then none
              else some (analyzeCode an inst.repo spec
                (getCodeFeatures cfg st inst an features spec.key)))) :: extra, ?_, ?_⟩
          · rw [he]
            simp [note]
          · intro fj hfj
            rcases List.mem_cons.mp hfj with rfl | hfj
            · rfl
            · exact hx fj hfj

theorem runAnalyzers_future_extend (cfg : Config) (inst : RepoInst)
    (af : List (String × List String)) :
    ∀ (anas : List AnalyzerModel) (st : RunnerState),
      ∃ extra, (runAnalyzers cfg inst af anas st).future_to_job
          = st.future_to_job ++ extra
        ∧ ∀ fj ∈ extra, fj.2.isRepoJob = false := by
  intro anas
  induction anas with
  | nil => intro st; exact ⟨[], by simp [runAnalyzers], by simp⟩
  | cons a rest ih =>
    intro st
    rw [runAnalyzers]
    split
    · exact ih st
    · rename_i features hlook
      split
      · exact ih st
      · rename_i specs hcodes
        split
        · rename_i st' heq
          obtain ⟨extra, he, hx⟩ :=
            processCodeItems_future_extend cfg a.name inst features specs st
          rw [heq] at he
          exact ⟨extra, he, hx⟩
        · rename_i st' heq
          obtain ⟨extra, he, hx⟩ :=
            processCodeItems_future_extend cfg a.name inst features specs st
          rw [heq] at he
          obtain ⟨extra2, he2, hx2⟩ := ih st'
          refine ⟨extra ++ extra2, ?_, ?_⟩
          · rw [he2, he, List.append_assoc]
          · intro fj hfj
            rcases List.mem_append.mp hfj with hfj | hfj
            · exact hx fj hfj
            · exact hx2 fj hfj

theorem handleRepo_future_extend (cfg : Config) (anas : List AnalyzerModel)
    (st : RunnerState) (repo : RepoModel) (af : List (String × List String)) :
    ∃ extra, (handleRepo cfg anas st repo af).future_to_job
        = st.future_to_job ++ extra
      ∧ ∀ fj ∈ extra, fj.2.isRepoJob = false := by
  unfold handleRepo
  rw [checkRepoCompletion_future_eq]
  split
  · exact ⟨[], by simp [note], by simp⟩
  · obtain ⟨extra, he, hx⟩ := runAnalyzers_future_extend cfg _ af anas _
    refine ⟨extra, ?_, hx⟩
    rw [he]
    rfl

theorem processFuture_future_extend (cfg : Config) (anas : List AnalyzerModel)
    (st : RunnerState) (fid : Nat) :
    ∃ extra, (processFuture cfg anas st fid).future_to_job
        = st.future_to_job ++ extra
      ∧ ∀ fj ∈ extra, fj.2.isRepoJob = false := by
  unfold processFuture
  split
  · exact ⟨[], by simp, by simp⟩
  · rename_i af result heq
    cases result with
    | none => exact ⟨[], by simp [handleRepoFuture], by simp⟩
    | some repo => exact handleRepo_future_extend cfg anas st repo af
  · rename_i result heq
    refine ⟨[], ?_, by simp⟩
    rw [handleCodeFuture_future_eq]
    simp

theorem foldl_processFuture_future_extend (cfg : Config) (anas : List AnalyzerModel) :
    ∀ (ids : List Nat) (st : RunnerState),
      ∃ extra, (ids.foldl (processFuture cfg anas) st).future_to_job
          = st.future_to_job ++ extra
        ∧ ∀ fj ∈ extra, fj.2.isRepoJob = false := by
  intro ids
  induction ids with
  | nil => intro st; exact ⟨[], by simp, by simp⟩
  | cons i rest ih =>
    intro st
    rw [List.foldl_cons]
    obtain ⟨e1, he1, hx1⟩ := processFuture_future_extend cfg anas st i
    obtain ⟨e2, he2, hx2⟩ := ih (processFuture cfg anas st i)
    refine ⟨e1 ++ e2, ?_, ?_⟩
    · rw [he2, he1, List.append_assoc]
    · intro fj hfj
      rcases List.mem_append.mp hfj with h | h
      · exact hx1 fj h
      · exact hx2 fj h

/-! The `maxRoundSum` ghost (the value of `repoSum` at the top of each round
of the `run` loop) is written only by the loop itself; every callback and
helper leaves it unchanged. -/

theorem handleCode_maxRoundSum_eq (cfg : Config) (st : RunnerState)
    (code : CodeData) : (handleCode cfg st code).maxRoundSum = st.maxRoundSum := by
  unfold handleCode; split <;> rfl

theorem handleCodeFuture_maxRoundSum_eq (cfg : Config) (st : RunnerState)
    (result : Option CodeData) :
    (handleCodeFuture cfg st result).maxRoundSum = st.maxRoundSum := by
  cases result with
  | none => rfl
  | some code => exact handleCode_maxRoundSum_eq cfg st code

theorem processCodeItems_maxRoundSum_eq (cfg : Config) (an : String)
    (inst : RepoInst) (features : List String) :
    ∀ (specs : List CodeSpec) (st : RunnerState),
      ((processCodeItems cfg an inst features specs st).1).maxRoundSum
        = st.maxRoundSum := by
  intro specs
  induction specs with
  | nil => intro st; rfl
  | cons spec rest ih =>
    intro st
    rw [processCodeItems]
    split
    · exact ih st
    · split
      · rfl
      · split
        · rw [ih, handleCode_maxRoundSum_eq]
        · rw [ih]
          rfl

theorem runAnalyzers_maxRoundSum_eq (cfg : Config) (inst : RepoInst)
    (af : List (String × List String)) :
    ∀ (anas : List AnalyzerModel) (st : RunnerState),
      (runAnalyzers cfg inst af anas st).maxRoundSum = st.maxRoundSum := by
  intro anas
  induction anas with
  | nil => intro st; rfl
  | cons a rest ih =>
    intro st
    rw [runAnalyzers]
    split
    · exact ih st
    · rename_i features hlook
      split
      · exact ih st
      · rename_i specs hcodes
        split
        · rename_i st' heq
          have h := processCodeItems_maxRoundSum_eq cfg a.name inst features specs st
          rw [heq] at h
          exact h
        · rename_i st' heq
          have h := processCodeItems_maxRoundSum_eq cfg a.name inst features specs st
          rw [heq] at h
          rw [ih st']
          exact h

theorem completeRepo_maxRoundSum_eq (cfg : Config) (st : RunnerState)
    (inst : RepoInst) : (completeRepo cfg st inst).maxRoundSum = st.maxRoundSum := rfl

theorem foldl_completeRepo_maxRoundSum_eq (cfg : Config) :
    ∀ (l : List RepoInst) (st : RunnerState),
      (l.foldl (completeRepo cfg) st).maxRoundSum = st.maxRoundSum := by
  intro l
  induction l with
  | nil => intro st; rfl
  | cons r rest ih =>
    intro st
    rw [List.foldl_cons, ih, completeRepo_maxRoundSum_eq]

theorem checkRepoCompletion_maxRoundSum_eq (cfg : Config) (st : RunnerState) :
    (checkRepoCompletion cfg st).maxRoundSum = st.maxRoundSum :=
  foldl_completeRepo_maxRoundSum_eq cfg _ st

theorem handleRepo_maxRoundSum_eq (cfg : Config) (anas : List AnalyzerModel)
    (st : RunnerState) (repo : RepoModel) (af : List (String × List String)) :
    (handleRepo cfg anas st repo af).maxRoundSum = st.maxRoundSum := by
  unfold handleRepo
  rw [checkRepoCompletion_maxRoundSum_eq]
  split
  · rfl
  · rw [runAnalyzers_maxRoundSum_eq]
    rfl

theorem processFuture_maxRoundSum_eq (cfg : Config) (anas : List AnalyzerModel)
    (st : RunnerState) (fid : Nat) :
    (processFuture cfg anas st fid).maxRoundSum = st.maxRoundSum := by
  unfold processFuture
  split
  · rfl
  · rename_i sn key af result heq
    cases result with
    | none => rfl
    | some repo => exact handleRepo_maxRoundSum_eq cfg anas st repo af
  · rename_i an rid result heq
    exact handleCodeFuture_maxRoundSum_eq cfg st result

theorem foldl_processFuture_maxRoundSum_eq (cfg : Config) (anas : List AnalyzerModel) :
    ∀ (ids : List Nat) (st : RunnerState),
      (ids.foldl (processFuture cfg anas) st).maxRoundSum = st.maxRoundSum := by
  intro ids
  induction ids with
  | nil => intro st; rfl
  | cons i rest ih =>
    intro st
    rw [List.foldl_cons, ih, processFuture_maxRoundSum_eq]

theorem consumeReposAux_maxRoundSum_eq (cfg : Config) (anas : List AnalyzerModel)
    (af : List (String × List String)) :
    ∀ (fuel : Nat) (gen : List SourceModel) (st : RunnerState),
      ((consumeReposAux cfg anas af fuel gen st).2).maxRoundSum = st.maxRoundSum := by
  intro fuel
  induction fuel with
  | zero => intro gen st; rfl
  | succ f ih =>
    intro gen st
    rw [consumeReposAux]
    split
    · split
      · rfl
      · dsimp only
        split
        · exact ih _ _
        · split
          · exact ih _ _
          · split
            · rw [ih]
              rfl
            · rw [ih, handleRepo_maxRoundSum_eq]
    · rfl

/-! `curComp` accounting: every unit-analysis callback leaves the in-flight
plus completed total unchanged, completing a current repo preserves it, and a
repo-preparation callback raises it by at most one. -/

theorem repoSum_eq (st : RunnerState) :
    repoSum st = curComp st + pendingRepoJobs st := by
  unfold repoSum curComp
  omega

theorem curComp_congr {a b : RunnerState} (hg : sameGhosts a b) :
    curComp a = curComp b := by
  obtain ⟨h1, h2, h3, h4, h5⟩ := hg
  unfold curComp
  rw [h3, h5]

theorem handleCodeFuture_curComp_eq (cfg : Config) (st : RunnerState)
    (result : Option CodeData) :
    curComp (handleCodeFuture cfg st result) = curComp st :=
  curComp_congr (handleCodeFuture_sameGhosts cfg st result)

theorem completeRepo_curComp_le {cfg : Config} {st : RunnerState}
    {inst : RepoInst} (hin : inst ∈ st.current_repos) :
    curComp (completeRepo cfg st inst) ≤ curComp st := by
  have hlt : (st.current_repos.filter (fun r => r.id ≠ inst.id)).length
      < st.current_repos.length :=
    length_filter_lt_of_mem hin (by simp)
  dsimp only [curComp, completeRepo, note]
  omega

theorem foldl_completeRepo_curComp_le (cfg : Config) :
    ∀ (l : List RepoInst) (st : RunnerState),
      (∀ r ∈ l, r ∈ st.current_repos) → (l.map RepoInst.id).Nodup →
      curComp (l.foldl (completeRepo cfg) st) ≤ curComp st := by
  intro l
  induction l with
  | nil => intro st _ _; exact Nat.le_refl _
  | cons r rest ih =>
    intro st hsub hnd
    rw [List.foldl_cons]
    have hin : r ∈ st.current_repos := hsub r (List.mem_cons_self r rest)
    refine Nat.le_trans (ih _ ?_ ?_) (completeRepo_curComp_le hin)
    · intro r' hr'
      rw [completeRepo_current_eq]
      refine List.mem_filter.mpr ⟨hsub r' (List.mem_cons_of_mem r hr'), ?_⟩
      simp only [List.map_cons, List.nodup_cons] at hnd
      have : r'.id ≠ r.id := fun hcontra =>
        hnd.1 (List.mem_map.mpr ⟨r', hr', hcontra⟩)
      simpa using this
    · simp only [List.map_cons, List.nodup_cons] at hnd
      exact hnd.2

theorem checkRepoCompletion_curComp_le {cfg : Config} {st : RunnerState}
    (h : (st.current_repos.map RepoInst.id).Nodup) :
    curComp (checkRepoCompletion cfg st) ≤ curComp st := by
  unfold checkRepoCompletion
  have hfs : (st.current_repos.filter
      (fun r => pendingCodeJobsFor st r.id = 0)).Sublist st.current_repos :=
    List.filter_sublist _
  exact foldl_completeRepo_curComp_le cfg _ st (fun r hr => hfs.mem hr)
    ((hfs.map RepoInst.id).nodup h)

theorem handleRepo_curComp_le (cfg : Config) (anas : List AnalyzerModel)
    (st : RunnerState) (repo : RepoModel) (af : List (String × List String))
    (h : cleanupInv st) :
    curComp (handleRepo cfg anas st repo af) ≤ curComp st + 1 := by
  have h1 := admitRepo_cleanupInv h repo
  have hnd := h1.2.2.2.1
  unfold handleRepo
  dsimp only
  split
  · refine Nat.le_trans (checkRepoCompletion_curComp_le ?_) ?_
    · exact hnd
    · dsimp only [curComp, note]
      rw [List.length_append]
      simp only [List.length_cons, List.length_nil]
      omega
  · refine Nat.le_trans (checkRepoCompletion_curComp_le ?_) ?_
    · rw [(runAnalyzers_sameGhosts cfg _ af anas _).2.2.1]
      exact hnd
    · rw [curComp_congr (runAnalyzers_sameGhosts cfg _ af anas _)]
      dsimp only [curComp, note]
      rw [List.length_append]
      simp only [List.length_cons, List.length_nil]
      omega

theorem processFuture_curComp_le (cfg : Config) (anas : List AnalyzerModel)
    (st : RunnerState) (fid : Nat) (base extra : List (Nat × Job))
    (h : cleanupInv st) (hf : st.future_to_job = base ++ extra)
    (hx : ∀ fj ∈ extra, fj.2.isRepoJob = false) :
    curComp (processFuture cfg anas st fid)
      ≤ curComp st
        + (base.filter (fun fj => fj.2.isRepoJob && decide (fj.1 = fid))).length := by
  unfold processFuture
  split
  · exact Nat.le_add_right _ _
  · rename_i sn key af result heq
    cases result with
    | none => exact Nat.le_add_right _ _
    | some repo =>
      have hmem : (fid, Job.repoJob sn key af (some repo)) ∈ base := by
        have hm0 := lookup_mem heq
        rw [hf] at hm0
        rcases List.mem_append.mp hm0 with hb | he
        · exact hb
        · have := hx _ he
          simp [Job.isRepoJob] at this
      have hpos : 0 < (base.filter
          (fun fj => fj.2.isRepoJob && decide (fj.1 = fid))).length := by
        have hmem2 : (fid, Job.repoJob sn key af (some repo)) ∈ base.filter
            (fun fj => fj.2.isRepoJob && decide (fj.1 = fid)) :=
          List.mem_filter.mpr ⟨hmem, by simp [Job.isRepoJob]⟩
        exact List.length_pos_of_mem hmem2
      exact Nat.le_trans (handleRepo_curComp_le cfg anas st repo af h)
        (Nat.add_le_add_left hpos _)
  · rename_i an rid result heq
    rw [handleCodeFuture_curComp_eq]
    exact Nat.le_add_right _ _

/-- Splitting the charged repo entries of the bookkeeping map over the head
and tail of a duplicate-free id list. -/
theorem cost_mem_cons (base : List (Nat × Job)) (fid : Nat) (rest : List Nat)
    (h : fid ∉ rest) :
    (base.filter (fun fj => fj.2.isRepoJob && decide (fj.1 ∈ fid :: rest))).length
      = (base.filter (fun fj => fj.2.isRepoJob && decide (fj.1 = fid))).length
        + (base.filter (fun fj => fj.2.isRepoJob && decide (fj.1 ∈ rest))).length := by
  induction base with
  | nil => rfl
  | cons fj bs ih =>
    by_cases hr : fj.2.isRepoJob = true
    · by_cases h1 : fj.1 = fid
      · have h2 : fj.1 ∉ rest := fun hc => h (h1 ▸ hc)
        have c1 : (fj.2.isRepoJob && decide (fj.1 ∈ fid :: rest)) = true := by
          simp [hr, h1]
        have c2 : (fj.2.isRepoJob && decide (fj.1 = fid)) = true := by
          simp [hr, h1]
        have c3 : (fj.2.isRepoJob && decide (fj.1 ∈ rest)) = false := by
          simp [h2]
        simp only [List.filter_cons, c1, c2, c3, if_true, Bool.false_eq_true,
          if_false, List.length_cons]
        omega
      · by_cases h2 : fj.1 ∈ rest
        · have c1 : (fj.2.isRepoJob && decide (fj.1 ∈ fid :: rest)) = true := by
            simp [hr, h2]
          have c2 : (fj.2.isRepoJob && decide (fj.1 = fid)) = false := by
            simp [h1]
          have c3 : (fj.2.isRepoJob && decide (fj.1 ∈ rest)) = true := by
            simp [hr, h2]
          simp only [List.filter_cons, c1, c2, c3, if_true, Bool.false_eq_true,
            if_false, List.length_cons]
          omega
        · have c1 : (fj.2.isRepoJob && decide (fj.1 ∈ fid :: rest)) = false := by
            simp [h1, h2]
          have c2 : (fj.2.isRepoJob && decide (fj.1 = fid)) = false := by
            simp [h1]
          have c3 : (fj.2.isRepoJob && decide (fj.1 ∈ rest)) = false := by
            simp [h2]
          simp only [List.filter_cons, c1, c2, c3, Bool.false_eq_true, if_false]
          exact ih
    · have hr' : fj.2.isRepoJob = false := by
        cases hb : fj.2.isRepoJob
        · rfl
        · exact absurd hb hr
      have c1 : (fj.2.isRepoJob && decide (fj.1 ∈ fid :: rest)) = false := by
        simp [hr']
      have c2 : (fj.2.isRepoJob && decide (fj.1 = fid)) = false := by
        simp [hr']
      have c3 : (fj.2.isRepoJob && decide (fj.1 ∈ rest)) = false := by
        simp [hr']
      simp only [List.filter_cons, c1, c2, c3, Bool.false_eq_true, if_false]
      exact ih

theorem foldl_processFuture_curComp_le (cfg : Config) (anas : List AnalyzerModel)
    (base : List (Nat × Job)) :
    ∀ (ids : List Nat) (st : RunnerState) (extra : List (Nat × Job)),
      ids.Nodup → cleanupInv st →
      st.future_to_job = base ++ extra →
      (∀ fj ∈ extra, fj.2.isRepoJob = false) →
      curComp (ids.foldl (processFuture cfg anas) st)
        ≤ curComp st
          + (base.filter (fun fj => fj.2.isRepoJob && decide (fj.1 ∈ ids))).length := by
  intro ids
  induction ids with
  | nil =>
    intro st extra _ _ _ _
    simp only [List.foldl_nil]
    exact Nat.le_add_right _ _
  | cons i rest ih =>
    intro st extra hnd hinv hf hx
    rw [List.foldl_cons]
    obtain ⟨e1, he1, hx1⟩ := processFuture_future_extend cfg anas st i
    have hstep := processFuture_curComp_le cfg anas st i base extra hinv hf hx
    have hinv1 : cleanupInv (processFuture cfg anas st i) :=
      processFuture_cleanupInv hinv
    have hf1 : (processFuture cfg anas st i).future_to_job
        = base ++ (extra ++ e1) := by
      rw [he1, hf, List.append_assoc]
    have hx1' : ∀ fj ∈ extra ++ e1, fj.2.isRepoJob = false := by
      intro fj hfj
      rcases List.mem_append.mp hfj with h' | h'
      · exact hx fj h'
      · exact hx1 fj h'
    have hrec := ih (processFuture cfg anas st i) (extra ++ e1)
      (List.nodup_cons.mp hnd).2 hinv1 hf1 hx1'
    have hcost := cost_mem_cons base i rest (List.nodup_cons.mp hnd).1
    omega

theorem repoSum_note (st : RunnerState) : repoSum (note st) = repoSum st := rfl

theorem repoSum_append_repoJob (st : RunnerState) (i n : Nat) (sn key : String)
    (af2 : List (String × List String)) (res : Option RepoModel) :
    repoSum { st with
      future_to_job := st.future_to_job ++ [(i, Job.repoJob sn key af2 res)],
      nextFutureId := n } = repoSum st + 1 := by
  unfold repoSum pendingRepoJobs
  dsimp only
  have hone : (([(i, Job.repoJob sn key af2 res)] : List (Nat × Job)).filter
      (fun fj => fj.2.isRepoJob)).length = 1 := rfl
  rw [List.filter_append, List.length_append, hone]
  omega

/-- While the feed-drawing loop runs, the in-flight + pending + completed sum
stays within `max_repos`: each admission is guarded by `reached_max_repos`
and raises the sum by at most one. -/
theorem consumeReposAux_repoSum_le {cfg : Config} {anas : List AnalyzerModel}
    {af : List (String × List String)} {k : Nat} (hk : cfg.max_repos = some k) :
    ∀ (fuel : Nat) (gen : List SourceModel) (st : RunnerState),
      cleanupInv st → repoSum st ≤ k →
      repoSum ((consumeReposAux cfg anas af fuel gen st).2) ≤ k := by
  intro fuel
  induction fuel with
  | zero => intro gen st _ h2; exact h2
  | succ f ih =>
    intro gen st hinv hsum
    rw [consumeReposAux]
    split
    · rename_i hguard
      have hlt : repoSum st < k := by
        have h2 := hguard.2.1
        simp only [reachedMaxRepos, hk, ge_iff_le, decide_eq_true_eq] at h2
        omega
      split
      · exact hsum
      · dsimp only
        split
        · exact ih _ _ hinv hsum
        · split
          · exact ih _ _ hinv hsum
          · split
            · refine ih _ _ ?_ ?_
              · exact cleanupInv_congr
                  (sameGhosts_trans (note_sameGhosts _) ⟨rfl, rfl, rfl, rfl, rfl⟩) hinv
              · rw [repoSum_note, repoSum_append_repoJob]
                omega
            · rename_i repo heq2 hdup hfeat
              refine ih _ _ (handleRepo_cleanupInv hinv) ?_
              obtain ⟨extra, he, hx⟩ := handleRepo_future_extend cfg anas st repo
                (outstandingFor cfg st af (RepoItem.ready repo))
              have hpend : pendingRepoJobs (handleRepo cfg anas st repo
                  (outstandingFor cfg st af (RepoItem.ready repo)))
                  = pendingRepoJobs st := by
                unfold pendingRepoJobs
                rw [he]
                exact pending_append_nonrepo hx
              have h1 := handleRepo_curComp_le cfg anas st repo
                (outstandingFor cfg st af (RepoItem.ready repo)) hinv
              have h2 := repoSum_eq st
              rw [repoSum_eq, hpend]
              omega
    · exact hsum

/-- One wait round of the `run` loop — dispatching a duplicate-free batch of
completion callbacks, dropping the finished futures from the bookkeeping map
and finishing completed repos — brings the in-flight + pending + completed
sum back under the cap it satisfied at the start of the round: every repo
entering `current_repos` during the callbacks is charged to a distinct
finished repo-preparation entry that the drop then removes. -/
theorem roundStep_repoSum (cfg : Config) (anas : List AnalyzerModel) (k : Nat)
    (st2 : RunnerState) (raw : List Nat)
    (hinv : cleanupInv st2) (hsum : repoSum st2 ≤ k) :
    repoSum (checkRepoCompletion cfg
      { (pickDone raw st2.future_to_job).foldl (processFuture cfg anas) st2 with
        future_to_job :=
          ((pickDone raw st2.future_to_job).foldl (processFuture cfg anas)
            st2).future_to_job.filter
            (fun fj => fj.1 ∉ pickDone raw st2.future_to_job) }) ≤ k := by
  have hnd : (pickDone raw st2.future_to_job).Nodup :=
    pickDone_nodup raw st2.future_to_job
  generalize hD : pickDone raw st2.future_to_job = ids at hnd ⊢
  obtain ⟨extra, hext, hxr⟩ := foldl_processFuture_future_extend cfg anas ids st2
  have hinv3 : cleanupInv (ids.foldl (processFuture cfg anas) st2) :=
    foldl_processFuture_cleanupInv ids st2 hinv
  have hcc : curComp (ids.foldl (processFuture cfg anas) st2)
      ≤ curComp st2 + (st2.future_to_job.filter
          (fun fj => fj.2.isRepoJob && decide (fj.1 ∈ ids))).length :=
    foldl_processFuture_curComp_le cfg anas st2.future_to_job ids st2 [] hnd hinv
      (List.append_nil _).symm (fun fj hfj => absurd hfj (List.not_mem_nil fj))
  have hinv4 : cleanupInv { ids.foldl (processFuture cfg anas) st2 with
      future_to_job := (ids.foldl (processFuture cfg anas)
        st2).future_to_job.filter (fun fj => fj.1 ∉ ids) } :=
    cleanupInv_congr ⟨rfl, rfl, rfl, rfl, rfl⟩ hinv3
  have hc5 := @checkRepoCompletion_curComp_le cfg _ hinv4.2.2.2.1
  have hp5 : pendingRepoJobs (checkRepoCompletion cfg
      { ids.foldl (processFuture cfg anas) st2 with
        future_to_job := (ids.foldl (processFuture cfg anas)
          st2).future_to_job.filter (fun fj => fj.1 ∉ ids) })
      = pendingRepoJobs { ids.foldl (processFuture cfg anas) st2 with
        future_to_job := (ids.foldl (processFuture cfg anas)
          st2).future_to_job.filter (fun fj => fj.1 ∉ ids) } := by
    unfold pendingRepoJobs
    rw [checkRepoCompletion_future_eq]
  have hp4 : pendingRepoJobs { ids.foldl (processFuture cfg anas) st2 with
      future_to_job := (ids.foldl (processFuture cfg anas)
        st2).future_to_job.filter (fun fj => fj.1 ∉ ids) }
      = (st2.future_to_job.filter
          (fun fj => fj.2.isRepoJob && !decide (fj.1 ∈ ids))).length := by
    unfold pendingRepoJobs
    dsimp only
    simp only [List.filter_filter, decide_not]
    rw [hext, List.filter_append, List.length_append]
    have hz : (extra.filter
        (fun a => a.2.isRepoJob && !decide (a.1 ∈ ids))).length = 0 := by
      rw [List.length_eq_zero]
      refine List.filter_eq_nil_iff.mpr ?_
      intro fj hfj
      simp [hxr fj hfj]
    rw [hz]
    omega
  have hsplit := length_filter_and_split (fun fj : Nat × Job => fj.2.isRepoJob)
    (fun fj : Nat × Job => decide (fj.1 ∈ ids)) st2.future_to_job
  have hps : pendingRepoJobs st2
      = (st2.future_to_job.filter (fun fj => fj.2.isRepoJob)).length := rfl
  have hcx : curComp { ids.foldl (processFuture cfg anas) st2 with
      future_to_job := (ids.foldl (processFuture cfg anas)
        st2).future_to_job.filter (fun fj => fj.1 ∉ ids) }
      = curComp (ids.foldl (processFuture cfg anas) st2) := rfl
  have h2 := repoSum_eq st2
  rw [repoSum_eq, hp5, hp4]
  omega

/-- Whole-run bound: starting under the cap with a well-formed state, every
round of the loop keeps `repoSum` under `max_repos = k` at its boundaries,
so the final state and the `maxRoundSum` high-water mark stay `≤ k`. -/
theorem runLoop_repoSum_le {cfg : Config} {anas : List AnalyzerModel}
    {af : List (String × List String)} {k : Nat} (hk : cfg.max_repos = some k) :
    ∀ (fuel : Nat) (sched : List (List Nat)) (gen : List SourceModel)
      (st : RunnerState), cleanupInv st → repoSum st ≤ k →
      st.maxRoundSum ≤ k →
      repoSum ((runLoop cfg anas af fuel sched gen st).1) ≤ k
      ∧ ((runLoop cfg anas af fuel sched gen st).1).maxRoundSum ≤ k := by
  intro fuel
  induction fuel with
  | zero => intro sched gen st _ h2 h3; exact ⟨h2, h3⟩
  | succ f ih =>
    intro sched gen st hinv hsum hmrs
    rw [runLoop]
    dsimp only
    have h0inv : cleanupInv { st with
        maxRoundSum := Nat.max st.maxRoundSum (repoSum st) } :=
      cleanupInv_congr ⟨rfl, rfl, rfl, rfl, rfl⟩ hinv
    have h0sum : repoSum { st with
        maxRoundSum := Nat.max st.maxRoundSum (repoSum st) } ≤ k := hsum
    have h0mrs : ({ st with
        maxRoundSum := Nat.max st.maxRoundSum (repoSum st) }
          : RunnerState).maxRoundSum ≤ k :=
      Nat.max_le.mpr ⟨hmrs, hsum⟩
    have hB1 : cleanupInv ((consumeRepos cfg anas af gen { st with
        maxRoundSum := Nat.max st.maxRoundSum (repoSum st) }).2) :=
      @consumeReposAux_cleanupInv cfg anas af (rotationMeasure gen) gen _ h0inv
    have hB2 : repoSum ((consumeRepos cfg anas af gen { st with
        maxRoundSum := Nat.max st.maxRoundSum (repoSum st) }).2) ≤ k :=
      @consumeReposAux_repoSum_le cfg anas af k hk (rotationMeasure gen) gen _
        h0inv h0sum
    have hB3 : ((consumeRepos cfg anas af gen { st with
        maxRoundSum := Nat.max st.maxRoundSum (repoSum st) }).2).maxRoundSum ≤ k := by
      have h := consumeReposAux_maxRoundSum_eq cfg anas af (rotationMeasure gen) gen
        { st with maxRoundSum := Nat.max st.maxRoundSum (repoSum st) }
      calc ((consumeRepos cfg anas af gen { st with
            maxRoundSum := Nat.max st.maxRoundSum (repoSum st) }).2).maxRoundSum
          = ({ st with maxRoundSum := Nat.max st.maxRoundSum (repoSum st) }
              : RunnerState).maxRoundSum := h
        _ ≤ k := h0mrs
    generalize hgs : consumeRepos cfg anas af gen { st with
      maxRoundSum := Nat.max st.maxRoundSum (repoSum st) } = gs at hB1 hB2 hB3 ⊢
    obtain ⟨gen2, st2⟩ := gs
    split
    · exact ⟨hB2, hB3⟩
    · refine ih sched.tail gen2 _ ?_ ?_ ?_
      · refine checkRepoCompletion_cleanupInv ?_
        exact cleanupInv_congr ⟨rfl, rfl, rfl, rfl, rfl⟩
          (foldl_processFuture_cleanupInv
            (pickDone (sched.headD []) st2.future_to_job) st2 hB1)
      · exact roundStep_repoSum cfg anas k st2 (sched.headD []) hB1 hB2
      · rw [checkRepoCompletion_maxRoundSum_eq]
        exact Nat.le_trans
          (Nat.le_of_eq (foldl_processFuture_maxRoundSum_eq cfg anas
            (pickDone (sched.headD []) st2.future_to_job) st2)) hB3

theorem initState_cleanupInv (db0 : Database) : cleanupInv (initState db0) := by
  refine ⟨?_, ?_, ?_, ?_, ?_, ?_⟩ <;> simp [initState]

/-- C7 (amended): `reached_max_repos` is exactly the guard "in-flight +
pending repo-preparation jobs + completed ≥ k", and `consume_repos` admits no
candidate once it holds; consequently `completed_repo_count ≤ k` at the end
of every run, and the in-flight + pending + completed sum observed at every
round boundary of the loop (the `maxRoundSum` high-water mark) never exceeds
`k`. The claim's stronger "at any point" reading fails only transiently,
while a finished repo-preparation future's callback runs before the future
is dropped — the counterexample. -/
theorem c7_amended_max_repos (cfg : Config) (srcs : List SourceModel)
    (anas : List AnalyzerModel) (sched : List (List Nat)) (fuel : Nat)
    (db0 : Database) (k : Nat) (hk : cfg.max_repos = some k) :
    (∀ st, reachedMaxRepos cfg st = true ↔ repoSum st ≥ k)
    ∧ (∀ (af : List (String × List String)) (gen : List SourceModel)
        (st : RunnerState), reachedMaxRepos cfg st = true →
        consumeRepos cfg anas af gen st = (gen, st))
    ∧ (run cfg srcs anas sched fuel db0).final.completed_repo_count ≤ k
    ∧ (run cfg srcs anas sched fuel db0).final.maxRoundSum ≤ k := by
  have hinit2 : repoSum (initState db0) ≤ k := by
    rw [show repoSum (initState db0) = 0 from rfl]
    exact Nat.zero_le k
  have hinit3 : (initState db0).maxRoundSum ≤ k := Nat.zero_le k
  have hrl := @runLoop_repoSum_le cfg anas
    (anas.map fun a => (a.name, a.features)) k hk fuel sched srcs
    (initState db0) (initState_cleanupInv db0) hinit2 hinit3
  refine ⟨?_, ?_, ?_, ?_⟩
  · intro st
    simp [reachedMaxRepos, hk]
  · intro af2 gen st h
    unfold consumeRepos
    cases hm : rotationMeasure gen with
    | zero => rfl
    | succ n =>
      rw [consumeReposAux, if_neg (fun hc => hc.2.1 h)]
  · have heq : (run cfg srcs anas sched fuel db0).final.completed_repo_count
        = ((runLoop cfg anas (anas.map fun a => (a.name, a.features))
            fuel sched srcs (initState db0)).1).completed_repo_count := rfl
    rw [heq]
    refine Nat.le_trans ?_ hrl.1
    unfold repoSum
    omega
  · have heq : (run cfg srcs anas sched fuel db0).final.maxRoundSum
        = ((runLoop cfg anas (anas.map fun a => (a.name, a.features))
            fuel sched srcs (initState db0)).1).maxRoundSum := rfl
    rw [heq]
    exact hrl.2

/-- Witness for C7's amended theorem at the C7 counterexample scenario:
`max_repos = 1` and the run completes at most one repository. -/
theorem c7_amended_max_repos_witness :
    c7Cfg.max_repos = some 1
    ∧ (run c7Cfg [c7Source] [c7Analyzer] [[0], [0], [1, 2]] 9
        Database.empty).final.completed_repo_count ≤ 1 :=
  ⟨rfl, (c7_amended_max_repos c7Cfg [c7Source] [c7Analyzer]
    [[0], [0], [1, 2]] 9 Database.empty 1 rfl).2.2.1⟩

/-! ## Claim C4: idempotent rerun -/

/-- If every candidate the feed can yield has no outstanding analyzer
features in the current store, the feed-drawing loop skips them all and
returns the runner state untouched. -/
theorem consumeReposAux_skip_all (cfg : Config) (anas : List AnalyzerModel)
    (af : List (String × List String)) :
    ∀ (fuel : Nat) (gen : List SourceModel) (st : RunnerState),
      (∀ item ∈ getRepoGenerator gen, outstandingFor cfg st af item = []) →
      (consumeReposAux cfg anas af fuel gen st).2 = st := by
  intro fuel
  induction fuel with
  | zero => intro gen st _; rfl
  | succ f ih =>
    intro gen st hyp
    rw [consumeReposAux]
    split
    · split
      · rfl
      · rename_i item gen' heq
        dsimp only
        have hg := getRepoGenerator_some heq
        have hhead : outstandingFor cfg st af item = [] := by
          refine hyp item ?_
          rw [hg]
          exact List.mem_cons_self _ _
        have htail : ∀ it ∈ getRepoGenerator gen',
            outstandingFor cfg st af it = [] := by
          intro it hit
          refine hyp it ?_
          rw [hg]
          exact List.mem_cons_of_mem _ hit
        split
        · exact ih _ _ htail
        · split
          · exact ih _ _ htail
          · rename_i hlen
            exact absurd (by rw [hhead]; rfl) hlen
    · rfl

/-- A round of the `run` loop over an empty bookkeeping map in which every
feed candidate is skipped exits normally at once, leaving everything but the
round ghost untouched. -/
theorem runLoop_noop (cfg : Config) (anas : List AnalyzerModel)
    (af : List (String × List String)) (f : Nat) (sched : List (List Nat))
    (gen : List SourceModel) (st : RunnerState)
    (hskip : ∀ item ∈ getRepoGenerator gen, outstandingFor cfg st af item = [])
    (hemp : st.future_to_job = []) :
    runLoop cfg anas af (f + 1) sched gen st
      = ({ st with maxRoundSum := Nat.max st.maxRoundSum (repoSum st) }, true) := by
  rw [runLoop]
  dsimp only
  have hcons : (consumeRepos cfg anas af gen { st with
      maxRoundSum := Nat.max st.maxRoundSum (repoSum st) }).2
      = { st with maxRoundSum := Nat.max st.maxRoundSum (repoSum st) } :=
    consumeReposAux_skip_all cfg anas af (rotationMeasure gen) gen _
      (fun item him => hskip item him)
  generalize hgs : consumeRepos cfg anas af gen { st with
    maxRoundSum := Nat.max st.maxRoundSum (repoSum st) } = gs at hcons ⊢
  obtain ⟨gen2, st2⟩ := gs
  dsimp only at hcons
  subst hcons
  split
  · rfl
  · rename_i hc
    exfalso
    apply hc
    show st.future_to_job.length = 0
    rw [hemp]
    rfl

/-- C4 (amended): when the store already records a repo-level aggregate for
every configured `(analyzer, feature)` pair of every candidate the sources
yield — as a successful complete first run leaves it —, rerunning with
`use_saved_features` (the default) performs zero unit-analysis jobs, admits
no repository, completes normally, and leaves the store — in particular all
repo-level aggregates — entirely unchanged. The claim's unconditional form
is false: a run whose only unit-analysis job fails still completes normally
but records no aggregate for that repository, so the second run redoes the
unit job (the counterexample). -/
theorem c4_amended_rerun_noop (cfg : Config) (srcs : List SourceModel)
    (anas : List AnalyzerModel) (sched : List (List Nat)) (fuel : Nat)
    (db1 : Database)
    (hskip : ∀ item ∈ getRepoGenerator srcs,
      db1.get_repo_missing_analyzer_features item.sourceName item.key
        (anas.map fun a => (a.name, a.features)) = [])
    (hu : cfg.use_saved_features = true) (hf : 0 < fuel) :
    (run cfg srcs anas sched fuel db1).final.db = db1
    ∧ (run cfg srcs anas sched fuel db1).final.unitJobsStarted = 0
    ∧ (run cfg srcs anas sched fuel db1).final.admitted = []
    ∧ (run cfg srcs anas sched fuel db1).completedNormally = true := by
  cases fuel with
  | zero => exact absurd hf (by simp)
  | succ f =>
    have hskip' : ∀ item ∈ getRepoGenerator srcs,
        outstandingFor cfg (initState db1)
          (anas.map fun a => (a.name, a.features)) item = [] := by
      intro item him
      unfold outstandingFor
      rw [hu, if_pos rfl]
      exact hskip item him
    have hL := runLoop_noop cfg anas (anas.map fun a => (a.name, a.features))
      f sched srcs (initState db1) hskip' rfl
    unfold run
    dsimp only
    rw [hL]
    exact ⟨rfl, rfl, rfl, rfl⟩

/-- The C4 repo. -/
def c4Repo : RepoModel := ⟨"src", "r1", []⟩

/-- The C4 counterexample analyzer: one deferred unit whose thunk raises in
the worker. -/
def c4Analyzer : AnalyzerModel :=
  ⟨"ana", ["f"],
   [(("src", "r1"), some [⟨"c1", some [("f", ⟨false, ["x"]⟩)], false, true⟩])]⟩

/-- The C4 source: yields the ready repo. -/
def c4Source : SourceModel := ⟨"src", [some (.ready c4Repo)]⟩

/-- The C4 configuration (defaults, in particular `use_saved_features`). -/
def c4Cfg : Config := ⟨2, none, none, true, true, true⟩

/-- First run of the C4 counterexample survey over an empty store. -/
def c4Run1 : RunResult := run c4Cfg [c4Source] [c4Analyzer] [[0]] 4 Database.empty

/-- Second run of the same survey over the store the first run left. -/
def c4Run2 : RunResult := run c4Cfg [c4Source] [c4Analyzer] [[0]] 4 c4Run1.final.db

/-- C4 is false as stated: the first run completes normally (the failing
unit-analysis job is logged under `continue_on_failure`), yet because no
feature of the failed unit was ever saved, the repository's aggregate is
missing from the store, and the second run — same sources, analyzers and
database — admits the repository again and performs a unit-analysis job
instead of zero. -/
theorem c4_counterexample :
    c4Run1.completedNormally = true
    ∧ c4Run1.final.unitJobsStarted = 1
    ∧ c4Run1.final.completed_repo_count = 1
    ∧ c4Run1.final.db.repo_features = []
    ∧ c4Run2.completedNormally = true
    ∧ c4Run2.final.unitJobsStarted = 1 := by
  refine ⟨?_, ?_, ?_, ?_, ?_, ?_⟩ <;> decide

/-- The C4 witness analyzer: one immediate unit that succeeds, so the first
run records the repo-level aggregate. -/
def c4GoodAnalyzer : AnalyzerModel :=
  ⟨"ana", ["f"],
   [(("src", "r1"), some [⟨"c1", some [("f", ⟨false, ["x"]⟩)], true, false⟩])]⟩

/-- First run of the C4 witness survey over an empty store. -/
def c4RunA : RunResult := run c4Cfg [c4Source] [c4GoodAnalyzer] [] 3 Database.empty

/-- Witness for C4's amended theorem: after a successful complete first run,
every candidate's outstanding features are recorded, and the second run over
the resulting store performs zero unit-analysis jobs and leaves it
unchanged. -/
theorem c4_amended_rerun_noop_witness :
    (∀ item ∈ getRepoGenerator [c4Source],
      (c4RunA.final.db).get_repo_missing_analyzer_features item.sourceName
        item.key ([c4GoodAnalyzer].map fun a => (a.name, a.features)) = [])
    ∧ c4Cfg.use_saved_features = true
    ∧ c4RunA.completedNormally = true
    ∧ c4RunA.final.unitJobsStarted = 1
    ∧ (run c4Cfg [c4Source] [c4GoodAnalyzer] [] 3 c4RunA.final.db).final.db
        = c4RunA.final.db
    ∧ (run c4Cfg [c4Source] [c4GoodAnalyzer] [] 3
        c4RunA.final.db).final.unitJobsStarted = 0 := by
  have hfeed : getRepoGenerator [c4Source] = [RepoItem.ready c4Repo] := by
    show getRepoGenerator (⟨"src", [some (.ready c4Repo)]⟩ :: []) = [.ready c4Repo]
    rw [getRepoGenerator_yield, List.nil_append, getRepoGenerator_exhausted,
      getRepoGenerator_none nextRepoItem_nil]
  have hskip : ∀ item ∈ getRepoGenerator [c4Source],
      (c4RunA.final.db).get_repo_missing_analyzer_features item.sourceName
        item.key ([c4GoodAnalyzer].map fun a => (a.name, a.features)) = [] := by
    rw [hfeed]
    decide
  have hmain := c4_amended_rerun_noop c4Cfg [c4Source] [c4GoodAnalyzer] [] 3
    c4RunA.final.db hskip rfl (by decide)
  exact ⟨hskip, rfl, by decide, by decide, hmain.1, hmain.2.1⟩

end CodeSurvey
